import Mathlib

set_option linter.unusedSectionVars false

/-!
Verification development for the dailzLRU caching library.

The repository has three layers:
* an intrusive recency list (`src/lru/list.go`), embedded below as `lruList`
  over an explicit node heap;
* an LRU core (`lru.LRU` with `NewLRU`, `Get`, `Peek`, `Add`, `Contains`,
  `Remove`, `RemoveOldest`, `GetOldest`, `Keys`, `Len`, `Purge`, `Resize`),
  whose source file is not part of the repository snapshot and is therefore
  modelled from the specification (each such definition is marked
  "Modelled from the spec:");
* a 2Q facade (`TwoQueueCache`) and a thread-safe LRU facade (`Cache`),
  embedded directly from their sources.

The LRU core is embedded functionally: the recency order is a list of
key/value pairs with the most recently used entry at the head, and the
eviction callback is represented by each operation returning the list of
pairs it fired the callback for.
-/

namespace DailzLRU

/-- Construction-time errors of the library (spec section 7). -/
inductive TQError where
  | invalidSize
  | invalidRecentRatio
  | invalidGhostRatio
deriving DecidableEq, Repr

/-- Modelled from the spec: the LRU core state (spec section 3, "LRU core
state").  `items` is the recency order, most recently used first, so the
back (eviction victim) is the last element.  The key-to-node index of the
source is implicit in the list.  The optional eviction callback is
represented by operations returning the pairs they fired it for. -/
structure LRU (K V : Type) where
  capacity : Int
  items : List (K × V)
deriving DecidableEq

variable {K V : Type} [DecidableEq K]

/-- Modelled from the spec: `NewLRU(capacity, onEvict?)` "fails with
InvalidSize if capacity ≤ 0" (spec section 4.2). -/
def NewLRU (capacity : Int) : Except TQError (LRU K V) :=
  if capacity ≤ 0 then .error .invalidSize else .ok ⟨capacity, []⟩

/-- Key predicate used by lookups. -/
def keyIs (k : K) : K × V → Bool := fun p => decide (p.1 = k)

/-- Modelled from the spec: `Contains(k)`, lookup without touching recency. -/
def LRU.contains (c : LRU K V) (k : K) : Bool :=
  c.items.any (keyIs k)

/-- Modelled from the spec: `Peek(k)`, lookup without touching recency. -/
def LRU.peek (c : LRU K V) (k : K) : Option V :=
  (c.items.find? (keyIs k)).map Prod.snd

/-- Modelled from the spec: `Get(k)`: if present, move to front and return
the stored value; else return none (the Go zero value with ok=false). -/
def LRU.get (c : LRU K V) (k : K) : LRU K V × Option V :=
  match c.items.find? (keyIs k) with
  | some p => ({ c with items := (p.1, p.2) :: c.items.eraseP (keyIs k) }, some p.2)
  | none => (c, none)

/-- Modelled from the spec: `Add(k,v)`: if `k` is present, overwrite the
value and move to front, returning false; else push a new front entry and,
if over capacity, evict the back node and fire the callback for it,
returning true.  The third component lists the callback-fired pairs. -/
def LRU.add (c : LRU K V) (k : K) (v : V) : LRU K V × Bool × List (K × V) :=
  if c.contains k then
    ({ c with items := (k, v) :: c.items.eraseP (keyIs k) }, false, [])
  else
    let items1 := (k, v) :: c.items
    if (items1.length : Int) > c.capacity then
      ({ c with items := items1.dropLast }, true, [items1.getLast (by simp)])
    else ({ c with items := items1 }, false, [])

/-- Modelled from the spec: `Remove(k)`: if present, unlink, delete the
index entry and fire the callback; return true.  Else false. -/
def LRU.remove (c : LRU K V) (k : K) : LRU K V × Bool × List (K × V) :=
  match c.items.find? (keyIs k) with
  | some p => ({ c with items := c.items.eraseP (keyIs k) }, true, [p])
  | none => (c, false, [])

/-- Modelled from the spec: `RemoveOldest()`: if non-empty, remove the back
node, fire the callback and return the removed pair. -/
def LRU.removeOldest (c : LRU K V) : LRU K V × Option (K × V) × List (K × V) :=
  match c.items.getLast? with
  | some p => ({ c with items := c.items.dropLast }, some p, [p])
  | none => (c, none, [])

/-- Modelled from the spec: `GetOldest()`: peek the back node without
mutation. -/
def LRU.getOldest (c : LRU K V) : Option (K × V) :=
  c.items.getLast?

/-- Modelled from the spec: `Keys()`, snapshot of keys ordered oldest
first. -/
def LRU.keys (c : LRU K V) : List K :=
  (c.items.map Prod.fst).reverse

/-- Modelled from the spec: `Len()`, the current entry count. -/
def LRU.len (c : LRU K V) : Nat :=
  c.items.length

/-- Modelled from the spec: `Purge()`: remove all entries, firing the
callback for each. -/
def LRU.purge (c : LRU K V) : LRU K V × List (K × V) :=
  ({ c with items := [] }, c.items)

/-- Modelled from the spec: `Resize(n)`: set the capacity to `n`, evict
oldest entries (with callback, oldest first) while the length exceeds `n`,
and return the number evicted. -/
def LRU.resize (c : LRU K V) (n : Int) : LRU K V × Int × List (K × V) :=
  let keepN : Nat := (max n 0).toNat
  let ev := (c.items.drop keepN).reverse
  (⟨n, c.items.take keepN⟩, (ev.length : Int), ev)

/-- The 2Q cache state, from `src/unnamed/part_000` (`TwoQueueCache`).
The mutex is irrelevant to the sequential semantics and is dropped. -/
structure TwoQueueCache (K V : Type) where
  size : Int
  recentSize : Int
  recent : LRU K V
  frequent : LRU K V
  recentEvict : LRU K V
deriving DecidableEq

/-- Constructor `New2QWithParam` from `src/unnamed/part_000`.  The float64
ratios are embedded as rationals; `int(float64(size) * ratio)` truncates
toward zero, which for the nonnegative products arising here equals the
rational floor `Rat.floor`. -/
def New2QWithParam (size : Int) (recentRatio ghostRatio : ℚ) :
    Except TQError (TwoQueueCache K V) :=
  if size ≤ 0 then .error .invalidSize
  else if recentRatio < 0 ∨ recentRatio > 1 then .error .invalidRecentRatio
  else if ghostRatio < 0 ∨ ghostRatio > 1 then .error .invalidGhostRatio
  else
    let recentSize := Rat.floor ((size : ℚ) * recentRatio)
    let evictSize := Rat.floor ((size : ℚ) * ghostRatio)
    do
      let recent ← NewLRU size
      let frequent ← NewLRU size
      let recentEvict ← NewLRU evictSize
      return ⟨size, recentSize, recent, frequent, recentEvict⟩

/-- Constants `Default2QRecentRatio` and `Default2QGhostEntries` from
`src/unnamed/part_000`. -/
def Default2QRecentRatio : ℚ := 1 / 4

/-- Default ghost ratio, see `Default2QRecentRatio`. -/
def Default2QGhostEntries : ℚ := 1 / 2

/-- Constructor `New2Q` from `src/unnamed/part_000`. -/
def New2Q (size : Int) : Except TQError (TwoQueueCache K V) :=
  New2QWithParam size Default2QRecentRatio Default2QGhostEntries

variable [Inhabited K] [Inhabited V]

/-- Method `ensureSpace` of `TwoQueueCache`, from `src/unnamed/part_000`
lines 109-123.  The Go code binds `k, _, _ := c.recent.RemoveOldest()` and
ghosts `k` with a zero value; when `recent` is empty `k` would be the zero
value of `K`, embedded as `default` (that branch is unreachable because of
the `recentLen > 0` guard). -/
def TwoQueueCache.ensureSpace (c : TwoQueueCache K V) (recentEvict : Bool) :
    TwoQueueCache K V :=
  let recentLen : Int := c.recent.len
  let freqLen : Int := c.frequent.len
  if recentLen + freqLen < c.size then c
  else if recentLen > 0 ∧
      (recentLen > c.recentSize ∨ (recentLen = c.recentSize ∧ recentEvict = false)) then
    let r := c.recent.removeOldest
    let k : K := ((r.2.1).map Prod.fst).getD default
    { c with recent := r.1, recentEvict := (c.recentEvict.add k default).1 }
  else
    { c with frequent := c.frequent.removeOldest.1 }

/-- Method `Add` of `TwoQueueCache`, from `src/unnamed/part_000` lines
84-107. -/
def TwoQueueCache.add (c : TwoQueueCache K V) (k : K) (v : V) :
    TwoQueueCache K V :=
  if c.frequent.contains k then
    { c with frequent := (c.frequent.add k v).1 }
  else if c.recent.contains k then
    { c with recent := (c.recent.remove k).1, frequent := (c.frequent.add k v).1 }
  else if c.recentEvict.contains k then
    let c1 := c.ensureSpace true
    { c1 with recentEvict := (c1.recentEvict.remove k).1,
              frequent := (c1.frequent.add k v).1 }
  else
    let c1 := c.ensureSpace false
    { c1 with recent := (c1.recent.add k v).1 }

/-- Method `Get` of `TwoQueueCache`, from `src/unnamed/part_000` lines
69-82.  Returns the new state and the looked-up value (`none` embeds the
Go zero value with `ok = false`). -/
def TwoQueueCache.get (c : TwoQueueCache K V) (k : K) :
    TwoQueueCache K V × Option V :=
  match c.frequent.get k with
  | (f1, some v) => ({ c with frequent := f1 }, some v)
  | (_, none) =>
    match c.recent.peek k with
    | some v =>
      ({ c with recent := (c.recent.remove k).1,
                frequent := (c.frequent.add k v).1 }, some v)
    | none => (c, none)

/-- Method `Len` of `TwoQueueCache`, from `src/unnamed/part_000`. -/
def TwoQueueCache.lenTotal (c : TwoQueueCache K V) : Int :=
  (c.recent.len : Int) + c.frequent.len

/-- Method `Remove` of `TwoQueueCache`, from `src/unnamed/part_000` lines
139-152: try `frequent`, then `recent`, then `recentEvict`, stopping at the
first hit. -/
def TwoQueueCache.remove (c : TwoQueueCache K V) (k : K) : TwoQueueCache K V :=
  let f := c.frequent.remove k
  if f.2.1 then { c with frequent := f.1 }
  else
    let r := c.recent.remove k
    if r.2.1 then { c with recent := r.1 }
    else
      let e := c.recentEvict.remove k
      if e.2.1 then { c with recentEvict := e.1 } else c

/-- Method `Purge` of `TwoQueueCache`, from `src/unnamed/part_000` lines
154-161. -/
def TwoQueueCache.purge (c : TwoQueueCache K V) : TwoQueueCache K V :=
  { c with recent := c.recent.purge.1,
           frequent := c.frequent.purge.1,
           recentEvict := c.recentEvict.purge.1 }

/-- Method `Contains` of `TwoQueueCache`, from `src/unnamed/part_000`. -/
def TwoQueueCache.containsQ (c : TwoQueueCache K V) (k : K) : Bool :=
  c.frequent.contains k || c.recent.contains k

/-- One externally visible 2Q operation (the mutating ones named by the
claims). -/
inductive TQOp (K V : Type) where
  | add (k : K) (v : V)
  | get (k : K)
  | remove (k : K)
  | purge

/-- Apply one 2Q operation to a cache state. -/
def TQOp.apply (c : TwoQueueCache K V) : TQOp K V → TwoQueueCache K V
  | .add k v => c.add k v
  | .get k => (c.get k).1
  | .remove k => c.remove k
  | .purge => c.purge

/-- Run a sequence of 2Q operations from a given state. -/
def TQRun (ops : List (TQOp K V)) (c : TwoQueueCache K V) : TwoQueueCache K V :=
  ops.foldl TQOp.apply c

/-- The thread-safe LRU facade with a registered eviction callback, from
`src/unnamed/part_002` (`Cache`).  The two parallel buffers `evictedKeys`
and `evictedVals` are embedded as one buffer of pairs; the internal
forwarding callback installed by `NewWithEvict` appends the core's fired
pairs to `buf`.  The user callback is represented by each facade operation
returning the list of pairs it passes to the callback after unlocking. -/
structure Cache (K V : Type) where
  lru : LRU K V
  buf : List (K × V)
deriving DecidableEq

/-- Constructor `NewWithEvict` from `src/unnamed/part_002` (with a non-nil
callback, so the forwarding buffers are installed). -/
def NewWithEvict (size : Int) : Except TQError (Cache K V) :=
  (NewLRU size).map (fun l => ⟨l, []⟩)

/-- Facade `Add` from `src/unnamed/part_002` lines 58-74.  Returns the new
state, the `evicted` flag, and the pairs passed to the user callback after
the lock is released (the code reads index 0 of the buffers and resets
them only when an eviction occurred). -/
def Cache.addC (c : Cache K V) (k : K) (v : V) :
    Cache K V × Bool × List (K × V) :=
  let r := c.lru.add k v
  let buf1 := c.buf ++ r.2.2
  if r.2.1 then (⟨r.1, []⟩, true, buf1.take 1)
  else (⟨r.1, buf1⟩, false, [])

/-- Facade `Get` from `src/unnamed/part_002`: delegates to the core under
the lock; no evictions occur. -/
def Cache.getC (c : Cache K V) (k : K) :
    Cache K V × Option V × List (K × V) :=
  let r := c.lru.get k
  (⟨r.1, c.buf⟩, r.2, [])

/-- Facade `Remove` from `src/unnamed/part_002` lines 128-144. -/
def Cache.removeC (c : Cache K V) (k : K) :
    Cache K V × Bool × List (K × V) :=
  let r := c.lru.remove k
  let buf1 := c.buf ++ r.2.2
  if r.2.1 then (⟨r.1, []⟩, true, buf1.take 1)
  else (⟨r.1, buf1⟩, false, [])

/-- Facade `RemoveOldest` from `src/unnamed/part_002` lines 165-181. -/
def Cache.removeOldestC (c : Cache K V) :
    Cache K V × Option (K × V) × List (K × V) :=
  let r := c.lru.removeOldest
  let buf1 := c.buf ++ r.2.2
  if r.2.1.isSome then (⟨r.1, []⟩, r.2.1, buf1.take 1)
  else (⟨r.1, buf1⟩, r.2.1, [])

/-- Facade `Resize` from `src/unnamed/part_002` lines 146-163: when the
core evicted anything, the whole buffers are taken and drained in order
after unlock. -/
def Cache.resizeC (c : Cache K V) (n : Int) :
    Cache K V × Int × List (K × V) :=
  let r := c.lru.resize n
  let buf1 := c.buf ++ r.2.2
  if r.2.1 > 0 then (⟨r.1, []⟩, r.2.1, buf1)
  else (⟨r.1, buf1⟩, r.2.1, [])

/-- Facade `Purge` from `src/unnamed/part_002` lines 205-222: the buffers
are taken whenever non-empty and drained in order after unlock (when they
are empty nothing is drained, which coincides with draining the empty
buffer). -/
def Cache.purgeC (c : Cache K V) : Cache K V × List (K × V) :=
  let r := c.lru.purge
  let buf1 := c.buf ++ r.2
  (⟨r.1, []⟩, buf1)

/-- One facade operation (the operations named by claim C6). -/
inductive COp (K V : Type) where
  | add (k : K) (v : V)
  | get (k : K)
  | remove (k : K)
  | removeOldest
  | resize (n : Int)
  | purge

/-- Apply one facade operation, returning the new state, the pairs passed
to the user callback by this operation, and the pairs the core removed
during this operation (for any reason: capacity pressure, explicit remove,
remove-oldest, resize or purge). -/
def COp.apply (c : Cache K V) : COp K V → Cache K V × List (K × V) × List (K × V)
  | .add k v =>
    let r := c.addC k v
    (r.1, r.2.2, (c.lru.add k v).2.2)
  | .get k =>
    let r := c.getC k
    (r.1, r.2.2, [])
  | .remove k =>
    let r := c.removeC k
    (r.1, r.2.2, (c.lru.remove k).2.2)
  | .removeOldest =>
    let r := c.removeOldestC
    (r.1, r.2.2, c.lru.removeOldest.2.2)
  | .resize n =>
    let r := c.resizeC n
    (r.1, r.2.2, (c.lru.resize n).2.2)
  | .purge =>
    let r := c.purgeC
    (r.1, r.2, c.lru.purge.2)

/-- Run a sequence of facade operations, accumulating the callback-invoked
pairs and the core-removed pairs in order. -/
def CRun (ops : List (COp K V)) (c : Cache K V) :
    Cache K V × List (K × V) × List (K × V) :=
  match ops with
  | [] => (c, [], [])
  | op :: rest =>
    let r := op.apply c
    let s := CRun rest r.1
    (s.1, r.2.1 ++ s.2.1, r.2.2 ++ s.2.2)

/-- An LRU entry node, from `src/lru/list.go` (`entry`).  Pointers are node
identifiers in an explicit heap; `none` embeds the Go nil pointer.  The
`list` field is the identifier of the owning `lruList` (nil when the node
belongs to no list). -/
structure entry (K V : Type) where
  next : Option Nat
  prev : Option Nat
  list : Option Nat
  key : K
  value : V
deriving DecidableEq

/-- The intrusive recency list, from `src/lru/list.go` (`lruList`): a heap
of nodes, the identifier of the sentinel root node (`&l.root`), the
identity of the list itself (what the Go `l` pointer compares as), and the
length counter. -/
structure lruList (K V : Type) where
  nodes : Nat → entry K V
  rootId : Nat
  listId : Nat
  len : Int

/-- Update one node of the heap in place. -/
def lruList.setN (s : lruList K V) (i : Nat) (f : entry K V → entry K V) :
    lruList K V :=
  { s with nodes := fun j => if j = i then f (s.nodes j) else s.nodes j }

/-- Method `init` of `lruList`, from `src/lru/list.go` lines 24-29: the
sentinel self-loops and `len` is reset. -/
def lruList.init (s : lruList K V) : lruList K V :=
  let s1 := s.setN s.rootId (fun n => { n with next := some s.rootId })
  let s2 := s1.setN s.rootId (fun n => { n with prev := some s.rootId })
  { s2 with len := 0 }

/-- Method `lazyInit` of `lruList`, from `src/lru/list.go` lines 50-54. -/
def lruList.lazyInit (s : lruList K V) : lruList K V :=
  if (s.nodes s.rootId).next = none then s.init else s

/-- Method `length` of `lruList`, from `src/lru/list.go`. -/
def lruList.length (s : lruList K V) : Int := s.len

/-- Method `back` of `lruList`, from `src/lru/list.go` lines 42-47. -/
def lruList.back (s : lruList K V) : Option Nat :=
  if s.len = 0 then none else (s.nodes s.rootId).prev

/-- Method `insert` of `lruList`, from `src/lru/list.go` lines 57-65,
embedded as the same sequence of pointer assignments (`e.prev = at`,
`e.next = at.next`, `e.prev.next = e`, `e.next.prev = e`, `e.list = l`,
`l.len++`).  After the second assignment `e.next` can only be nil if
`at.next` was nil, i.e. on an uninitialized list, where the Go code would
fault; the model leaves the heap unchanged on that nil dereference. -/
def lruList.insert (s : lruList K V) (e at_ : Nat) : lruList K V :=
  let s1 := s.setN e (fun n => { n with prev := some at_ })
  let s2 := s1.setN e (fun n => { n with next := (s1.nodes at_).next })
  let s3 := s2.setN at_ (fun n => { n with next := some e })
  let s4 := match (s3.nodes e).next with
            | some q => s3.setN q (fun n => { n with prev := some e })
            | none => s3
  let s5 := s4.setN e (fun n => { n with list := some s.listId })
  { s5 with len := s5.len + 1 }

/-- Method `remove` of `lruList`, from `src/lru/list.go` lines 73-81,
embedded as the same sequence of assignments (`e.prev.next = e.next`,
`e.next.prev = e.prev`, then `e.next`, `e.prev`, `e.list` are cleared and
`l.len--`).  The source also returns `e.value`, available in the model as
`(s.nodes e).value`.  A nil `e.prev`/`e.next` (a node already unlinked),
on which the Go code would fault, leaves the heap unchanged. -/
def lruList.remove (s : lruList K V) (e : Nat) : lruList K V :=
  let s1 := match (s.nodes e).prev with
            | some p => s.setN p (fun n => { n with next := (s.nodes e).next })
            | none => s
  let s2 := match (s1.nodes e).next with
            | some q => s1.setN q (fun n => { n with prev := (s1.nodes e).prev })
            | none => s1
  let s3 := s2.setN e (fun n => { n with next := none })
  let s4 := s3.setN e (fun n => { n with prev := none })
  let s5 := s4.setN e (fun n => { n with list := none })
  { s5 with len := s5.len - 1 }

/-- Method `move` of `lruList`, from `src/lru/list.go` lines 84-95: if
`e == at` do nothing, else unlink `e` and splice it in after `at`, as the
same sequence of pointer assignments. -/
def lruList.move (s : lruList K V) (e at_ : Nat) : lruList K V :=
  if e = at_ then s
  else
    let s1 := match (s.nodes e).prev with
              | some p => s.setN p (fun n => { n with next := (s.nodes e).next })
              | none => s
    let s2 := match (s1.nodes e).next with
              | some q => s1.setN q (fun n => { n with prev := (s1.nodes e).prev })
              | none => s1
    let s3 := s2.setN e (fun n => { n with prev := some at_ })
    let s4 := s3.setN e (fun n => { n with next := (s3.nodes at_).next })
    let s5 := s4.setN at_ (fun n => { n with next := some e })
    let s6 := match (s5.nodes e).next with
              | some q => s5.setN q (fun n => { n with prev := some e })
              | none => s5
    s6

/-- Method `pushFront` of `lruList`, from `src/lru/list.go` lines 98-101:
lazily initialize, allocate a fresh node (`&entry{key:k, value:v}`, all
pointers nil) at the fresh identifier `e`, and insert it after the root. -/
def lruList.pushFront (s : lruList K V) (e : Nat) (k : K) (v : V) :
    lruList K V :=
  let s0 := s.lazyInit
  let s1 : lruList K V :=
    { s0 with nodes := fun j => if j = e then ⟨none, none, none, k, v⟩ else s0.nodes j }
  s1.insert e s.rootId

/-- Method `moveToFront` of `lruList`, from `src/lru/list.go` lines
106-111: if `e.list != l` or `e` is already at the front, do nothing; else
move `e` after the root. -/
def lruList.moveToFront (s : lruList K V) (e : Nat) : lruList K V :=
  if (s.nodes e).list ≠ some s.listId ∨ (s.nodes s.rootId).next = some e then s
  else s.move e s.rootId

/-- Adjacency of two nodes in the heap: `a.next == b` and `b.prev == a`. -/
def lruList.link (s : lruList K V) (a b : Nat) : Prop :=
  (s.nodes a).next = some b ∧ (s.nodes b).prev = some a

instance (s : lruList K V) (a b : Nat) : Decidable (s.link a b) := by
  unfold lruList.link; infer_instance

/-- A list of node identifiers is a chain when every two consecutive nodes
are linked. -/
def lruList.chain (s : lruList K V) : List Nat → Prop
  | a :: b :: rest => s.link a b ∧ s.chain (b :: rest)
  | _ => True

/-- Decidability of `lruList.chain`, by recursion on the identifier list. -/
def lruList.chainDec (s : lruList K V) : (l : List Nat) → Decidable (s.chain l)
  | [] => .isTrue trivial
  | [_] => .isTrue trivial
  | a :: b :: rest =>
    haveI : Decidable (s.chain (b :: rest)) := chainDec s (b :: rest)
    inferInstanceAs (Decidable (s.link a b ∧ s.chain (b :: rest)))

instance (s : lruList K V) (l : List Nat) : Decidable (s.chain l) :=
  s.chainDec l

/-- Well-formedness of an initialized recency list, stating the documented
invariants: `ids` is the cyclic sequence of non-sentinel nodes reachable
from the root (in `next` order, front first), every such node's `list`
pointer names this list, the identifiers (root included) are distinct, and
`len` counts the non-sentinel nodes. -/
def lruList.WF (s : lruList K V) (ids : List Nat) : Prop :=
  s.chain (s.rootId :: ids ++ [s.rootId]) ∧
  (s.rootId :: ids).Nodup ∧
  (∀ i ∈ ids, (s.nodes i).list = some s.listId) ∧
  s.len = (ids.length : Int)

instance (s : lruList K V) (ids : List Nat) : Decidable (s.WF ids) := by
  unfold lruList.WF; infer_instance

/-! Claim-translation definitions and concrete states used by witnesses and
counterexamples. -/

/-- A freshly constructed 2Q cache with the given computed sizes (the
successful result of `New2QWithParam`). -/
def mkFresh (size recentSize evictSize : Int) : TwoQueueCache K V :=
  ⟨size, recentSize, ⟨size, []⟩, ⟨size, []⟩, ⟨evictSize, []⟩⟩

/-- Success test for `Except`. -/
def isOkE : Except TQError α → Bool
  | .ok _ => true
  | .error _ => false

instance {ε α : Type} [DecidableEq ε] [DecidableEq α] :
    DecidableEq (Except ε α)
  | .error e, .error f =>
    if h : e = f then .isTrue (by rw [h])
    else .isFalse (by intro hh; injection hh; exact h (by assumption))
  | .error _, .ok _ => .isFalse (by intro hh; injection hh)
  | .ok _, .error _ => .isFalse (by intro hh; injection hh)
  | .ok a, .ok b =>
    if h : a = b then .isTrue (by rw [h])
    else .isFalse (by intro hh; injection hh; exact h (by assumption))

/-- The ghost-recording step prescribed by claim C2 for the evict-from-
recent branch: the oldest entry of `recent` is evicted and its key is
recorded in `recentEvict` with a zero value.  When `recent` has no oldest
entry the prescription is unsatisfiable; the translation then keeps only
its weakest uncontested consequence, that `frequent` is untouched. -/
def ghostRecordClaim (c r : TwoQueueCache K V) : Prop :=
  match c.recent.removeOldest.2.1 with
  | some p => r = { c with recent := c.recent.removeOldest.1,
                           recentEvict := (c.recentEvict.add p.1 default).1 }
  | none => r.frequent = c.frequent

instance [DecidableEq V] (c r : TwoQueueCache K V) :
    Decidable (ghostRecordClaim c r) := by
  unfold ghostRecordClaim
  split
  · infer_instance
  · infer_instance

/-- The behaviour of `ensureSpace(recentEvict)` exactly as claim C2 states
it: do nothing below capacity; otherwise, when `recent.len > recentSize`
or `recent.len = recentSize` with the flag false, evict the oldest from
`recent` recording a ghost; otherwise evict the oldest from `frequent`. -/
def ensureSpaceClaimC2 (c : TwoQueueCache K V) (flag : Bool)
    (r : TwoQueueCache K V) : Prop :=
  (c.lenTotal < c.size → r = c) ∧
  (¬ c.lenTotal < c.size →
    (((c.recent.len : Int) > c.recentSize ∨
      ((c.recent.len : Int) = c.recentSize ∧ flag = false)) →
      ghostRecordClaim c r) ∧
    (¬ ((c.recent.len : Int) > c.recentSize ∨
      ((c.recent.len : Int) = c.recentSize ∧ flag = false)) →
      r = { c with frequent := c.frequent.removeOldest.1 }))

instance [DecidableEq V] (c : TwoQueueCache K V) (flag : Bool)
    (r : TwoQueueCache K V) : Decidable (ensureSpaceClaimC2 c flag r) := by
  unfold ensureSpaceClaimC2; infer_instance

/-- Claim C2 amended by the guard the code actually has: the evict-from-
recent branch additionally requires `recent.len > 0`; every other
over-capacity state (in particular every state with `recent` empty) evicts
the oldest from `frequent` and records no ghost. -/
def ensureSpaceAmendedC2 (c : TwoQueueCache K V) (flag : Bool)
    (r : TwoQueueCache K V) : Prop :=
  (c.lenTotal < c.size → r = c) ∧
  (¬ c.lenTotal < c.size →
    ((0 < (c.recent.len : Int) ∧
      ((c.recent.len : Int) > c.recentSize ∨
       ((c.recent.len : Int) = c.recentSize ∧ flag = false))) →
      ghostRecordClaim c r) ∧
    (¬ (0 < (c.recent.len : Int) ∧
      ((c.recent.len : Int) > c.recentSize ∨
       ((c.recent.len : Int) = c.recentSize ∧ flag = false))) →
      r = { c with frequent := c.frequent.removeOldest.1 }))

instance [DecidableEq V] (c : TwoQueueCache K V) (flag : Bool)
    (r : TwoQueueCache K V) : Decidable (ensureSpaceAmendedC2 c flag r) := by
  unfold ensureSpaceAmendedC2; infer_instance

/-- Reachable state refuting claim C2: size 2, recentRatio 0 (recentSize
0), ghostRatio 1, after `Add 0; Add 0; Add 1; Add 1` the cache has
`recent` empty and `frequent` full. -/
def c2CexState : TwoQueueCache Nat Nat :=
  TQRun [.add 0 0, .add 0 0, .add 1 1, .add 1 1] (mkFresh 2 0 2)

/-- Run refuting claim C3: size 2, recentRatio 1 (recentSize 2),
ghostRatio 1; a ghost re-hit with `frequent` empty skips the eviction. -/
def c3CexState : TwoQueueCache Nat Nat :=
  TQRun [.add 0 0, .add 1 1, .add 2 2, .add 0 5] (mkFresh 2 2 2)

/-- The 2Q invariant maintained by every operation (given
`recentSize < size`): sub-cache capacities as constructed, duplicate-free
key columns, `recent` and `frequent` key-disjoint, and the total size
bound. -/
def TQInv (c : TwoQueueCache K V) : Prop :=
  c.recent.capacity = c.size ∧
  c.frequent.capacity = c.size ∧
  0 < c.size ∧
  c.recentSize < c.size ∧
  (c.recent.items.map Prod.fst).Nodup ∧
  (c.frequent.items.map Prod.fst).Nodup ∧
  (∀ p ∈ c.recent.items, c.frequent.contains p.1 = false) ∧
  c.lenTotal ≤ c.size

instance (c : TwoQueueCache K V) : Decidable (TQInv c) := by
  unfold TQInv; infer_instance

/-- Concrete recency list used by witnesses: sentinel 0, members 1 (front)
and 2 (back), list identity 7. -/
def sampleList : lruList Nat Nat :=
  ⟨fun j => if j = 0 then ⟨some 1, some 2, none, 0, 0⟩
    else if j = 1 then ⟨some 2, some 0, some 7, 1, 10⟩
    else if j = 2 then ⟨some 0, some 1, some 7, 2, 20⟩
    else ⟨none, none, none, 0, 0⟩, 0, 7, 2⟩

/-- Witness state with key 0 in `frequent`: size-2 cache after
`Add 0; Add 0`. -/
def addW1 : TwoQueueCache Nat Nat :=
  TQRun [.add 0 0, .add 0 7] (mkFresh 2 1 2)

/-- Witness state with key 0 in `recent`: size-2 cache after `Add 0`. -/
def addW2 : TwoQueueCache Nat Nat :=
  TQRun [.add 0 3] (mkFresh 2 1 2)

/-- Witness state with key 0 only in `recentEvict`: size-2 cache after
`Add 0; Add 1; Add 2`. -/
def addW3 : TwoQueueCache Nat Nat :=
  TQRun [.add 0 0, .add 1 1, .add 2 2] (mkFresh 2 1 2)

/-! Lemmas about the LRU core. -/

theorem contains_iff_exists {c : LRU K V} {k : K} :
    c.contains k = true ↔ ∃ p ∈ c.items, p.1 = k := by
  simp [LRU.contains, keyIs, List.any_eq_true]

theorem contains_iff_find? {c : LRU K V} {k : K} :
    c.contains k = true ↔ (c.items.find? (keyIs k)).isSome := by
  rw [List.find?_isSome, contains_iff_exists]
  simp [keyIs]

theorem find?_eq_none_of_not_contains {c : LRU K V} {k : K}
    (h : c.contains k = false) : c.items.find? (keyIs k) = none := by
  rw [List.find?_eq_none]
  intro p hp hk
  have : c.contains k = true := contains_iff_exists.2 ⟨p, hp, by simpa [keyIs] using hk⟩
  simp [this] at h

theorem add_eq_pos {c : LRU K V} {k : K} {v : V} (h : c.contains k = true) :
    c.add k v = ({ c with items := (k, v) :: c.items.eraseP (keyIs k) }, false, []) := by
  simp [LRU.add, h]

theorem add_eq_fresh_small {c : LRU K V} {k : K} {v : V}
    (h : c.contains k = false) (h2 : (c.items.length : Int) + 1 ≤ c.capacity) :
    c.add k v = ({ c with items := (k, v) :: c.items }, false, []) := by
  simp only [LRU.add, h, Bool.false_eq_true, if_false]
  rw [if_neg]
  simp only [List.length_cons]
  push_cast
  omega

theorem add_eq_fresh_evict {c : LRU K V} {k : K} {v : V}
    (h : c.contains k = false) (h2 : c.capacity < (c.items.length : Int) + 1) :
    c.add k v = ({ c with items := ((k, v) :: c.items).dropLast }, true,
      [((k, v) :: c.items).getLast (by simp)]) := by
  simp only [LRU.add, h, Bool.false_eq_true, if_false]
  rw [if_pos]
  simp only [List.length_cons]
  push_cast
  omega

theorem remove_eq_none {c : LRU K V} {k : K} (h : c.contains k = false) :
    c.remove k = (c, false, []) := by
  simp [LRU.remove, find?_eq_none_of_not_contains h]

theorem remove_eq_some {c : LRU K V} {k : K} {p : K × V}
    (h : c.items.find? (keyIs k) = some p) :
    c.remove k = ({ c with items := c.items.eraseP (keyIs k) }, true, [p]) := by
  simp [LRU.remove, h]

theorem removeOldest_items (c : LRU K V) :
    c.removeOldest.1.items = c.items.dropLast := by
  unfold LRU.removeOldest
  cases h : c.items.getLast? with
  | none => simp [List.getLast?_eq_none_iff.1 h]
  | some p => simp

theorem removeOldest_capacity (c : LRU K V) :
    c.removeOldest.1.capacity = c.capacity := by
  unfold LRU.removeOldest
  cases c.items.getLast? <;> simp

theorem add_capacity (c : LRU K V) (k : K) (v : V) :
    (c.add k v).1.capacity = c.capacity := by
  unfold LRU.add
  split
  · rfl
  · dsimp only
    split <;> rfl

theorem remove_capacity (c : LRU K V) (k : K) :
    (c.remove k).1.capacity = c.capacity := by
  unfold LRU.remove
  cases c.items.find? (keyIs k) <;> simp

theorem get_capacity (c : LRU K V) (k : K) :
    (c.get k).1.capacity = c.capacity := by
  unfold LRU.get
  cases c.items.find? (keyIs k) <;> simp

theorem keys_eraseP_not_mem {l : List (K × V)} (h : (l.map Prod.fst).Nodup)
    (k : K) : k ∉ (l.eraseP (keyIs k)).map Prod.fst := by
  by_cases hc : ∃ p ∈ l, p.1 = k
  · obtain ⟨p, hp, hk⟩ := hc
    obtain ⟨a, l1, l2, h1, h2, h3, h4⟩ :=
      List.exists_of_eraseP hp (show keyIs k p = true from decide_eq_true hk)
    rw [h4]
    subst h3
    have hak : a.1 = k := of_decide_eq_true h2
    simp only [List.map_append, List.map_cons] at h
    have h5 := (List.nodup_cons.1 (List.nodup_middle.1 h)).1
    rw [← List.map_append] at h5
    rw [hak] at h5
    exact h5
  · push_neg at hc
    rw [List.eraseP_of_forall_not (fun a ha => by simp [keyIs, hc a ha])]
    simp only [List.mem_map, not_exists, not_and]
    intro p hp hpk
    exact hc p hp hpk

theorem keys_nodup_eraseP {l : List (K × V)} (h : (l.map Prod.fst).Nodup)
    (q : K × V → Bool) : ((l.eraseP q).map Prod.fst).Nodup :=
  h.sublist ((l.eraseP_sublist).map Prod.fst)

theorem keys_nodup_dropLast {l : List (K × V)} (h : (l.map Prod.fst).Nodup) :
    (l.dropLast.map Prod.fst).Nodup :=
  h.sublist ((List.dropLast_sublist l).map Prod.fst)

theorem contains_eraseP_imp {c : LRU K V} {x : K} {q : K × V → Bool}
    (h : ∃ p ∈ c.items.eraseP q, p.1 = x) : c.contains x = true :=
  contains_iff_exists.2 (by
    obtain ⟨p, hp, he⟩ := h
    exact ⟨p, (c.items.eraseP_sublist).mem hp, he⟩)

theorem contains_add_imp {c : LRU K V} {k x : K} {v : V}
    (h : (c.add k v).1.contains x = true) : x = k ∨ c.contains x = true := by
  by_cases hc : c.contains k = true
  · rw [add_eq_pos hc] at h
    rw [contains_iff_exists] at h
    obtain ⟨p, hp, he⟩ := h
    rcases List.mem_cons.1 hp with h1 | h1
    · left; rw [← he, h1]
    · right; exact contains_eraseP_imp ⟨p, h1, he⟩
  · rw [Bool.not_eq_true] at hc
    unfold LRU.add at h
    rw [hc] at h
    simp only [Bool.false_eq_true, if_false] at h
    by_cases h2 : ((((k, v) :: c.items).length : Int) > c.capacity)
    · rw [if_pos h2] at h
      rw [contains_iff_exists] at h
      obtain ⟨p, hp, he⟩ := h
      have hp2 : p ∈ (k, v) :: c.items :=
        (List.dropLast_sublist _).mem hp
      rcases List.mem_cons.1 hp2 with h1 | h1
      · left; rw [← he, h1]
      · right; exact contains_iff_exists.2 ⟨p, h1, he⟩
    · rw [if_neg h2] at h
      rw [contains_iff_exists] at h
      obtain ⟨p, hp, he⟩ := h
      rcases List.mem_cons.1 hp with h1 | h1
      · left; rw [← he, h1]
      · right; exact contains_iff_exists.2 ⟨p, h1, he⟩

theorem contains_remove_imp {c : LRU K V} {k x : K}
    (h : (c.remove k).1.contains x = true) : c.contains x = true := by
  unfold LRU.remove at h
  cases hf : c.items.find? (keyIs k) with
  | none => rw [hf] at h; exact h
  | some p =>
    rw [hf] at h
    rw [contains_iff_exists] at h
    exact contains_eraseP_imp h

theorem contains_removeOldest_imp {c : LRU K V} {x : K}
    (h : c.removeOldest.1.contains x = true) : c.contains x = true := by
  rw [contains_iff_exists] at h
  obtain ⟨p, hp, he⟩ := h
  rw [removeOldest_items] at hp
  exact contains_iff_exists.2 ⟨p, (List.dropLast_sublist _).mem hp, he⟩

theorem contains_eq_false_iff {c : LRU K V} {k : K} :
    c.contains k = false ↔ ∀ p ∈ c.items, p.1 ≠ k := by
  rw [← Bool.not_eq_true, contains_iff_exists]
  push_neg
  rfl

theorem length_eraseP_of_contains {c : LRU K V} {k : K}
    (h : c.contains k = true) :
    (c.items.eraseP (keyIs k)).length + 1 = c.items.length := by
  obtain ⟨p, hp, he⟩ := contains_iff_exists.1 h
  have h1 := List.length_eraseP_of_mem hp (show keyIs k p = true from decide_eq_true he)
  have h2 : 0 < c.items.length := List.length_pos.2 (List.ne_nil_of_mem hp)
  omega

theorem keys_nodup_add {c : LRU K V} {k : K} {v : V}
    (h : (c.items.map Prod.fst).Nodup) :
    ((c.add k v).1.items.map Prod.fst).Nodup := by
  by_cases hc : c.contains k = true
  · rw [add_eq_pos hc]
    exact List.nodup_cons.2 ⟨keys_eraseP_not_mem h k, keys_nodup_eraseP h _⟩
  · rw [Bool.not_eq_true] at hc
    have hk : k ∉ c.items.map Prod.fst := by
      intro hm
      obtain ⟨p, hp, he⟩ := List.mem_map.1 hm
      exact (contains_eq_false_iff.1 hc p hp) he
    have hcons : (((k, v) :: c.items).map Prod.fst).Nodup :=
      List.nodup_cons.2 ⟨hk, h⟩
    by_cases h2 : c.capacity < (c.items.length : Int) + 1
    · rw [add_eq_fresh_evict hc h2]
      exact keys_nodup_dropLast hcons
    · rw [add_eq_fresh_small hc (by omega)]
      exact hcons

theorem length_add_pos {c : LRU K V} {k : K} {v : V}
    (h : c.contains k = true) :
    (c.add k v).1.items.length = c.items.length := by
  rw [add_eq_pos h]
  have := length_eraseP_of_contains (c := c) (k := k) h
  simpa using this

theorem contains_remove_self {c : LRU K V} {k : K}
    (h : (c.items.map Prod.fst).Nodup) :
    (c.remove k).1.contains k = false := by
  unfold LRU.remove
  cases hf : c.items.find? (keyIs k) with
  | none =>
    dsimp only
    rw [← Bool.not_eq_true, contains_iff_find?, hf]
    simp
  | some p =>
    dsimp only
    rw [contains_eq_false_iff]
    intro q hq he
    exact keys_eraseP_not_mem h k (List.mem_map.2 ⟨q, hq, he⟩)

theorem length_remove_of_contains {c : LRU K V} {k : K}
    (h : c.contains k = true) :
    (c.remove k).1.items.length + 1 = c.items.length := by
  obtain hs := contains_iff_find?.1 h
  cases hf : c.items.find? (keyIs k) with
  | none => rw [hf] at hs; simp at hs
  | some p =>
    rw [remove_eq_some hf]
    exact length_eraseP_of_contains h

/-! Lemmas about `ensureSpace`. -/

theorem ensureSpace_size (c : TwoQueueCache K V) (flag : Bool) :
    (c.ensureSpace flag).size = c.size := by
  unfold TwoQueueCache.ensureSpace
  dsimp only
  split
  · rfl
  · split <;> rfl

theorem ensureSpace_recentSize (c : TwoQueueCache K V) (flag : Bool) :
    (c.ensureSpace flag).recentSize = c.recentSize := by
  unfold TwoQueueCache.ensureSpace
  dsimp only
  split
  · rfl
  · split <;> rfl

theorem ensureSpace_recent_capacity (c : TwoQueueCache K V) (flag : Bool) :
    (c.ensureSpace flag).recent.capacity = c.recent.capacity := by
  unfold TwoQueueCache.ensureSpace
  dsimp only
  split
  · rfl
  · split
    · exact removeOldest_capacity _
    · rfl

theorem ensureSpace_frequent_capacity (c : TwoQueueCache K V) (flag : Bool) :
    (c.ensureSpace flag).frequent.capacity = c.frequent.capacity := by
  unfold TwoQueueCache.ensureSpace
  dsimp only
  split
  · rfl
  · split
    · rfl
    · exact removeOldest_capacity _

theorem ensureSpace_recent_sublist (c : TwoQueueCache K V) (flag : Bool) :
    List.Sublist (c.ensureSpace flag).recent.items c.recent.items := by
  unfold TwoQueueCache.ensureSpace
  dsimp only
  split
  · exact List.Sublist.refl _
  · split
    · rw [removeOldest_items]
      exact List.dropLast_sublist _
    · exact List.Sublist.refl _

theorem ensureSpace_frequent_sublist (c : TwoQueueCache K V) (flag : Bool) :
    List.Sublist (c.ensureSpace flag).frequent.items c.frequent.items := by
  unfold TwoQueueCache.ensureSpace
  dsimp only
  split
  · exact List.Sublist.refl _
  · split
    · exact List.Sublist.refl _
    · rw [removeOldest_items]
      exact List.dropLast_sublist _

theorem contains_of_sublist {c d : LRU K V} {x : K}
    (hs : List.Sublist c.items d.items) (h : c.contains x = true) :
    d.contains x = true := by
  rw [contains_iff_exists] at h ⊢
  obtain ⟨p, hp, he⟩ := h
  exact ⟨p, hs.mem hp, he⟩

theorem ensureSpace_total_lt {c : TwoQueueCache K V} (flag : Bool)
    (h1 : c.lenTotal ≤ c.size) (h2 : c.recentSize < c.size)
    (h3 : 0 < c.size) :
    (c.ensureSpace flag).lenTotal < c.size := by
  simp only [TwoQueueCache.lenTotal, LRU.len] at h1
  unfold TwoQueueCache.ensureSpace
  dsimp only
  split
  · next hlt => exact hlt
  · next hge =>
    simp only [LRU.len] at hge
    split
    · next hcond =>
      simp only [LRU.len] at hcond
      simp only [TwoQueueCache.lenTotal, LRU.len]
      rw [removeOldest_items, List.length_dropLast]
      obtain ⟨hr0, hx⟩ := hcond
      omega
    · next hcond =>
      simp only [LRU.len] at hcond
      simp only [TwoQueueCache.lenTotal, LRU.len]
      rw [removeOldest_items, List.length_dropLast]
      push_neg at hcond
      by_cases hr0 : 0 < ((c.recent.items.length : Nat) : Int)
      · have h4 := (hcond hr0).1
        omega
      · omega

theorem get_eq_none {c : LRU K V} {k : K} (h : c.contains k = false) :
    c.get k = (c, none) := by
  simp [LRU.get, find?_eq_none_of_not_contains h]

theorem get_eq_some {c : LRU K V} {k : K} {p : K × V}
    (h : c.items.find? (keyIs k) = some p) :
    c.get k = ({ c with items := (p.1, p.2) :: c.items.eraseP (keyIs k) }, some p.2) := by
  simp [LRU.get, h]

theorem find?_keyIs_fst {l : List (K × V)} {k : K} {p : K × V}
    (h : l.find? (keyIs k) = some p) : p.1 = k := by
  have := List.find?_some h
  simpa [keyIs] using this

theorem find?_keyIs_mem {l : List (K × V)} {k : K} {p : K × V}
    (h : l.find? (keyIs k) = some p) : p ∈ l :=
  List.mem_of_find?_eq_some h

theorem contains_get_imp {c : LRU K V} {k x : K}
    (h : (c.get k).1.contains x = true) : c.contains x = true := by
  cases hf : c.items.find? (keyIs k) with
  | none =>
    rw [get_eq_none] at h
    · exact h
    · rw [← Bool.not_eq_true, contains_iff_find?, hf]
      simp
  | some p =>
    rw [get_eq_some hf] at h
    rw [contains_iff_exists] at h
    obtain ⟨q, hq, he⟩ := h
    rcases List.mem_cons.1 hq with h1 | h1
    · refine contains_iff_exists.2 ⟨p, find?_keyIs_mem hf, ?_⟩
      rw [← he, h1]
    · exact contains_eraseP_imp ⟨q, h1, he⟩

theorem keys_nodup_get {c : LRU K V} {k : K}
    (h : (c.items.map Prod.fst).Nodup) :
    ((c.get k).1.items.map Prod.fst).Nodup := by
  cases hf : c.items.find? (keyIs k) with
  | none =>
    rw [get_eq_none]
    · exact h
    · rw [← Bool.not_eq_true, contains_iff_find?, hf]
      simp
  | some p =>
    rw [get_eq_some hf]
    refine List.nodup_cons.2 ⟨?_, keys_nodup_eraseP h _⟩
    rw [find?_keyIs_fst hf]
    exact keys_eraseP_not_mem h k

theorem length_get {c : LRU K V} (k : K) :
    (c.get k).1.items.length = c.items.length := by
  cases hf : c.items.find? (keyIs k) with
  | none =>
    rw [get_eq_none]
    · rw [← Bool.not_eq_true, contains_iff_find?, hf]
      simp
  | some p =>
    rw [get_eq_some hf]
    have hc : c.contains k = true := by
      rw [contains_iff_find?, hf]; rfl
    have := length_eraseP_of_contains hc
    simpa using this

theorem remove_items_sublist (c : LRU K V) (k : K) :
    List.Sublist (c.remove k).1.items c.items := by
  unfold LRU.remove
  cases c.items.find? (keyIs k) with
  | none => exact List.Sublist.refl _
  | some p => exact c.items.eraseP_sublist

theorem keys_nodup_remove {c : LRU K V} {k : K}
    (h : (c.items.map Prod.fst).Nodup) :
    ((c.remove k).1.items.map Prod.fst).Nodup :=
  h.sublist ((remove_items_sublist c k).map Prod.fst)

/-- The 2Q invariant is preserved by `ensureSpace`. -/
theorem inv_ensureSpace {c : TwoQueueCache K V} (h : TQInv c) (flag : Bool) :
    TQInv (c.ensureSpace flag) := by
  obtain ⟨hc1, hc2, hc3, hc4, hn1, hn2, hd, hl⟩ := h
  refine ⟨?_, ?_, ?_, ?_, ?_, ?_, ?_, ?_⟩
  · rw [ensureSpace_recent_capacity, ensureSpace_size]; exact hc1
  · rw [ensureSpace_frequent_capacity, ensureSpace_size]; exact hc2
  · rw [ensureSpace_size]; exact hc3
  · rw [ensureSpace_recentSize, ensureSpace_size]; exact hc4
  · exact hn1.sublist ((ensureSpace_recent_sublist c flag).map Prod.fst)
  · exact hn2.sublist ((ensureSpace_frequent_sublist c flag).map Prod.fst)
  · intro p hp
    have hp2 : p ∈ c.recent.items := (ensureSpace_recent_sublist c flag).mem hp
    cases hres : (c.ensureSpace flag).frequent.contains p.1 with
    | false => rfl
    | true =>
      have := contains_of_sublist (ensureSpace_frequent_sublist c flag) hres
      rw [hd p hp2] at this
      exact absurd this (by simp)
  · rw [ensureSpace_size]
    have h1 := ((ensureSpace_recent_sublist c flag).map Prod.fst).length_le
    have h2 := ((ensureSpace_frequent_sublist c flag).map Prod.fst).length_le
    simp only [List.length_map] at h1 h2
    unfold TwoQueueCache.lenTotal LRU.len at hl ⊢
    omega

theorem length_pos_of_contains {c : LRU K V} {k : K}
    (h : c.contains k = true) : 0 < c.items.length := by
  obtain ⟨p, hp, _⟩ := contains_iff_exists.1 h
  exact List.length_pos.2 (List.ne_nil_of_mem hp)

theorem not_mem_keys_of_not_contains {c : LRU K V} {k : K}
    (h : c.contains k = false) : k ∉ c.items.map Prod.fst := by
  intro hm
  obtain ⟨p, hp, he⟩ := List.mem_map.1 hm
  exact contains_eq_false_iff.1 h p hp he

/-- Promotion of a key out of `recent` into `frequent` (shared shape of
2Q `Add` on a recent hit and 2Q `Get` on a recent hit) preserves the 2Q
invariant. -/
theorem inv_promote {c : TwoQueueCache K V} (h : TQInv c) {k : K} (v : V)
    (hf : c.frequent.contains k = false) (hr : c.recent.contains k = true) :
    TQInv { c with recent := (c.recent.remove k).1,
                   frequent := (c.frequent.add k v).1 } := by
  obtain ⟨hc1, hc2, hc3, hc4, hn1, hn2, hd, hl⟩ := h
  have hflen : (c.frequent.items.length : Int) + 1 ≤ c.frequent.capacity := by
    have hrpos := length_pos_of_contains hr
    simp only [TwoQueueCache.lenTotal, LRU.len] at hl
    rw [hc2]
    omega
  rw [add_eq_fresh_small hf hflen]
  obtain hs := contains_iff_find?.1 hr
  cases hfind : c.recent.items.find? (keyIs k) with
  | none => rw [hfind] at hs; simp at hs
  | some p0 =>
    rw [remove_eq_some hfind]
    refine ⟨hc1, hc2, hc3, hc4, keys_nodup_eraseP hn1 _,
      List.nodup_cons.2 ⟨not_mem_keys_of_not_contains hf, hn2⟩, ?_, ?_⟩
    · intro p hp
      dsimp only at hp ⊢
      rw [contains_eq_false_iff]
      intro q hq
      have hpk : p.1 ≠ k := by
        intro he
        have hm : p.1 ∈ (List.eraseP (keyIs k) c.recent.items).map Prod.fst :=
          List.mem_map.2 ⟨p, hp, rfl⟩
        rw [he] at hm
        exact keys_eraseP_not_mem hn1 k hm
      rcases List.mem_cons.1 hq with h1 | h1
      · rw [h1]
        exact fun he => hpk he.symm
      · exact contains_eq_false_iff.1
          (hd p ((List.eraseP_sublist c.recent.items).mem hp)) q h1
    · simp only [TwoQueueCache.lenTotal, LRU.len, List.length_cons] at hl ⊢
      have := length_eraseP_of_contains hr
      omega

/-- The 2Q invariant is preserved by `Add`. -/
theorem inv_add {c : TwoQueueCache K V} (h : TQInv c) (k : K) (v : V) :
    TQInv (c.add k v) := by
  have h0 := h
  obtain ⟨hc1, hc2, hc3, hc4, hn1, hn2, hd, hl⟩ := h
  unfold TwoQueueCache.add
  split
  · next hf =>
    refine ⟨hc1, by rw [add_capacity]; exact hc2, hc3, hc4, hn1,
      keys_nodup_add hn2, ?_, ?_⟩
    · intro p hp
      cases hres : (c.frequent.add k v).1.contains p.1 with
      | false => rfl
      | true =>
        rcases contains_add_imp hres with he | he
        · have h5 := hd p hp
          rw [he, hf] at h5
          exact absurd h5 (by simp)
        · have h5 := hd p hp
          rw [h5] at he
          exact absurd he (by simp)
    · simp only [TwoQueueCache.lenTotal, LRU.len] at hl ⊢
      rw [length_add_pos hf]
      exact hl
  · next hf =>
    rw [Bool.not_eq_true] at hf
    split
    · next hr =>
      exact inv_promote h0 v hf hr
    · next hr =>
      rw [Bool.not_eq_true] at hr
      have htot := ensureSpace_total_lt (c := c) true hl hc4 hc3
      have htot2 := ensureSpace_total_lt (c := c) false hl hc4 hc3
      split
      · next hg =>
        dsimp only
        have hinv1 := inv_ensureSpace h0 true
        obtain ⟨g1, g2, g3, g4, g5, g6, g7, g8⟩ := hinv1
        have hkf : (c.ensureSpace true).frequent.contains k = false := by
          cases hres : (c.ensureSpace true).frequent.contains k with
          | false => rfl
          | true =>
            have := contains_of_sublist (ensureSpace_frequent_sublist c true) hres
            rw [hf] at this
            exact absurd this (by simp)
        have hkr : ∀ x ∈ (c.ensureSpace true).recent.items, x.1 ≠ k := by
          intro x hx he
          have : c.recent.contains k = true :=
            contains_iff_exists.2 ⟨x, (ensureSpace_recent_sublist c true).mem hx, he⟩
          rw [hr] at this
          exact absurd this (by simp)
        have hflen1 : ((c.ensureSpace true).frequent.items.length : Int) + 1 ≤
            (c.ensureSpace true).frequent.capacity := by
          simp only [TwoQueueCache.lenTotal, LRU.len, ensureSpace_size] at htot
          rw [ensureSpace_frequent_capacity, hc2]
          omega
        rw [add_eq_fresh_small hkf hflen1]
        refine ⟨g1, g2, g3, g4, g5,
          List.nodup_cons.2 ⟨not_mem_keys_of_not_contains hkf, g6⟩, ?_, ?_⟩
        · intro p hp
          rw [contains_eq_false_iff]
          intro q hq
          rcases List.mem_cons.1 hq with h1 | h1
          · rw [h1]
            exact fun he => (hkr p hp) he.symm
          · exact contains_eq_false_iff.1 (g7 p hp) q h1
        · simp only [TwoQueueCache.lenTotal, LRU.len, List.length_cons,
            ensureSpace_size] at htot ⊢
          omega
      · next hg =>
        dsimp only
        have hinv1 := inv_ensureSpace h0 false
        obtain ⟨g1, g2, g3, g4, g5, g6, g7, g8⟩ := hinv1
        have hkr : (c.ensureSpace false).recent.contains k = false := by
          cases hres : (c.ensureSpace false).recent.contains k with
          | false => rfl
          | true =>
            have := contains_of_sublist (ensureSpace_recent_sublist c false) hres
            rw [hr] at this
            exact absurd this (by simp)
        have hkf2 : (c.ensureSpace false).frequent.contains k = false := by
          cases hres : (c.ensureSpace false).frequent.contains k with
          | false => rfl
          | true =>
            have := contains_of_sublist (ensureSpace_frequent_sublist c false) hres
            rw [hf] at this
            exact absurd this (by simp)
        have hrlen1 : ((c.ensureSpace false).recent.items.length : Int) + 1 ≤
            (c.ensureSpace false).recent.capacity := by
          simp only [TwoQueueCache.lenTotal, LRU.len, ensureSpace_size] at htot2
          rw [ensureSpace_recent_capacity, hc1]
          omega
        rw [add_eq_fresh_small hkr hrlen1]
        refine ⟨g1, g2, g3, g4,
          List.nodup_cons.2 ⟨not_mem_keys_of_not_contains hkr, g5⟩, g6, ?_, ?_⟩
        · intro p hp
          rcases List.mem_cons.1 hp with h1 | h1
          · rw [h1]
            exact hkf2
          · exact g7 p h1
        · simp only [TwoQueueCache.lenTotal, LRU.len, List.length_cons,
            ensureSpace_size] at htot2 ⊢
          omega

theorem contains_false_of_get_none {c : LRU K V} {k : K} {d : LRU K V}
    (h : c.get k = (d, none)) : c.contains k = false := by
  unfold LRU.get at h
  cases hf : c.items.find? (keyIs k) with
  | none =>
    rw [← Bool.not_eq_true, contains_iff_find?, hf]
    simp
  | some p =>
    rw [hf] at h
    simp at h

theorem contains_of_peek_some {c : LRU K V} {k : K} {v : V}
    (h : c.peek k = some v) : c.contains k = true := by
  unfold LRU.peek at h
  rw [contains_iff_find?]
  cases hf : c.items.find? (keyIs k) with
  | none => rw [hf] at h; simp at h
  | some p => rfl

/-- The 2Q invariant is preserved by `Get`. -/
theorem inv_get {c : TwoQueueCache K V} (h : TQInv c) (k : K) :
    TQInv (c.get k).1 := by
  have h0 := h
  obtain ⟨hc1, hc2, hc3, hc4, hn1, hn2, hd, hl⟩ := h
  unfold TwoQueueCache.get
  split
  · next f1 v heq =>
    have hf1 : (c.frequent.get k).1 = f1 := by rw [heq]
    refine ⟨hc1, ?_, hc3, hc4, hn1, ?_, ?_, ?_⟩
    · dsimp only
      rw [← hf1, get_capacity]
      exact hc2
    · dsimp only
      rw [← hf1]
      exact keys_nodup_get hn2
    · intro p hp
      dsimp only at hp ⊢
      cases hres : f1.contains p.1 with
      | false => rfl
      | true =>
        rw [← hf1] at hres
        have := contains_get_imp hres
        rw [hd p hp] at this
        exact absurd this (by simp)
    · simp only [TwoQueueCache.lenTotal, LRU.len] at hl ⊢
      rw [← hf1, length_get]
      exact hl
  · next a heq =>
    split
    · next v hpeek =>
      have hr : c.recent.contains k = true := contains_of_peek_some hpeek
      have hf : c.frequent.contains k = false := contains_false_of_get_none heq
      exact inv_promote h0 v hf hr
    · next hpeek => exact h0

/-- The 2Q invariant is preserved by `Remove`. -/
theorem inv_remove {c : TwoQueueCache K V} (h : TQInv c) (k : K) :
    TQInv (c.remove k) := by
  obtain ⟨hc1, hc2, hc3, hc4, hn1, hn2, hd, hl⟩ := h
  unfold TwoQueueCache.remove
  dsimp only
  split
  · next hfb =>
    refine ⟨hc1, by rw [remove_capacity]; exact hc2, hc3, hc4, hn1,
      keys_nodup_remove hn2, ?_, ?_⟩
    · intro p hp
      dsimp only at hp ⊢
      cases hres : (c.frequent.remove k).1.contains p.1 with
      | false => rfl
      | true =>
        have := contains_remove_imp hres
        rw [hd p hp] at this
        exact absurd this (by simp)
    · simp only [TwoQueueCache.lenTotal, LRU.len] at hl ⊢
      have := ((remove_items_sublist c.frequent k).map Prod.fst).length_le
      simp only [List.length_map] at this
      omega
  · next hfb =>
    split
    · next hrb =>
      refine ⟨by rw [remove_capacity]; exact hc1, hc2, hc3, hc4,
        keys_nodup_remove hn1, hn2, ?_, ?_⟩
      · intro p hp
        dsimp only at hp ⊢
        exact hd p ((remove_items_sublist c.recent k).mem hp)
      · simp only [TwoQueueCache.lenTotal, LRU.len] at hl ⊢
        have := ((remove_items_sublist c.recent k).map Prod.fst).length_le
        simp only [List.length_map] at this
        omega
    · next hrb =>
      split
      · next heb => exact ⟨hc1, hc2, hc3, hc4, hn1, hn2, hd, hl⟩
      · next heb => exact ⟨hc1, hc2, hc3, hc4, hn1, hn2, hd, hl⟩

/-- The 2Q invariant is preserved by `Purge`. -/
theorem inv_purge {c : TwoQueueCache K V} (h : TQInv c) :
    TQInv c.purge := by
  obtain ⟨hc1, hc2, hc3, hc4, hn1, hn2, hd, hl⟩ := h
  refine ⟨hc1, hc2, hc3, hc4, by simp [TwoQueueCache.purge, LRU.purge],
    by simp [TwoQueueCache.purge, LRU.purge], ?_, ?_⟩
  · intro p hp
    simp [TwoQueueCache.purge, LRU.purge] at hp
  · simp only [TwoQueueCache.purge, TwoQueueCache.lenTotal, LRU.purge, LRU.len,
      List.length_nil]
    omega

/-- The 2Q invariant is preserved by every operation. -/
theorem inv_step {c : TwoQueueCache K V} (h : TQInv c) (op : TQOp K V) :
    TQInv (op.apply c) := by
  cases op with
  | add k v => exact inv_add h k v
  | get k => exact inv_get h k
  | remove k => exact inv_remove h k
  | purge => exact inv_purge h

/-- The 2Q invariant is preserved by every operation sequence. -/
theorem inv_run {c : TwoQueueCache K V} (h : TQInv c) (ops : List (TQOp K V)) :
    TQInv (TQRun ops c) := by
  induction ops generalizing c with
  | nil => exact h
  | cons op rest ih => exact ih (inv_step h op)

theorem NewLRU_pos {cap : Int} (h : ¬ cap ≤ 0) :
    (NewLRU cap : Except TQError (LRU K V)) = .ok ⟨cap, []⟩ := by
  simp [NewLRU, h]

/-- Evaluation of a successful construction. -/
theorem new2QWithParam_eval {size : Int} {r g : ℚ}
    (h1 : 0 < size) (h2 : 0 ≤ r) (h3 : r ≤ 1) (h4 : 0 ≤ g) (h5 : g ≤ 1)
    (h6 : 0 < Rat.floor ((size : ℚ) * g)) :
    New2QWithParam (K := K) (V := V) size r g =
      .ok (mkFresh size (Rat.floor ((size : ℚ) * r)) (Rat.floor ((size : ℚ) * g))) := by
  unfold New2QWithParam
  rw [if_neg (by omega), if_neg (by push_neg; exact ⟨h2, h3⟩),
    if_neg (by push_neg; exact ⟨h4, h5⟩)]
  rw [NewLRU_pos (by omega)]
  simp only [bind, Except.bind, NewLRU,
    if_neg (show ¬ Rat.floor ((size : ℚ) * g) ≤ 0 by omega),
    Functor.map, Except.map, pure, Except.pure]
  rfl

/-- Evaluation of a construction whose ghost capacity floors to zero. -/
theorem new2QWithParam_evictZero {size : Int} {r g : ℚ}
    (h1 : 0 < size) (h2 : 0 ≤ r) (h3 : r ≤ 1) (h4 : 0 ≤ g) (h5 : g ≤ 1)
    (h6 : Rat.floor ((size : ℚ) * g) ≤ 0) :
    New2QWithParam (K := K) (V := V) size r g = .error TQError.invalidSize := by
  unfold New2QWithParam
  rw [if_neg (by omega), if_neg (by push_neg; exact ⟨h2, h3⟩),
    if_neg (by push_neg; exact ⟨h4, h5⟩)]
  rw [NewLRU_pos (by omega)]
  simp only [bind, Except.bind, NewLRU, if_pos h6, Functor.map, Except.map]

theorem construct_one_quarter_half :
    New2QWithParam (K := Nat) (V := Nat) 1 (1/4) (1/2) =
      Except.error TQError.invalidSize := by
  apply new2QWithParam_evictZero (by norm_num) (by norm_num) (by norm_num)
    (by norm_num) (by norm_num)
  rw [show Rat.floor (((1:Int) : ℚ) * (1/2)) = Int.floor (((1:Int) : ℚ) * (1/2)) from rfl]
  norm_num

theorem construct_two_one_one :
    New2QWithParam (K := Nat) (V := Nat) 2 1 1 = Except.ok (mkFresh 2 2 2) := by
  have h := new2QWithParam_eval (K := Nat) (V := Nat) (r := 1) (g := 1)
    (show (0:Int) < 2 by norm_num) (by norm_num) (by norm_num) (by norm_num)
    (by norm_num) (by
      rw [show Rat.floor (((2:Int) : ℚ) * 1) = Int.floor (((2:Int) : ℚ) * 1) from rfl]
      norm_num)
  rw [h]
  rw [show Rat.floor (((2:Int) : ℚ) * 1) = Int.floor (((2:Int) : ℚ) * 1) from rfl]
  norm_num

theorem construct_two_zero_one :
    New2QWithParam (K := Nat) (V := Nat) 2 0 1 = Except.ok (mkFresh 2 0 2) := by
  have h := new2QWithParam_eval (K := Nat) (V := Nat) (r := 0) (g := 1)
    (show (0:Int) < 2 by norm_num) (by norm_num) (by norm_num) (by norm_num)
    (by norm_num) (by
      rw [show Rat.floor (((2:Int) : ℚ) * 1) = Int.floor (((2:Int) : ℚ) * 1) from rfl]
      norm_num)
  rw [h]
  rw [show Rat.floor (((2:Int) : ℚ) * 1) = Int.floor (((2:Int) : ℚ) * 1) from rfl]
  rw [show Rat.floor (((2:Int) : ℚ) * 0) = Int.floor (((2:Int) : ℚ) * 0) from rfl]
  norm_num

theorem construct_two_half_one :
    New2QWithParam (K := Nat) (V := Nat) 2 (1/2) 1 = Except.ok (mkFresh 2 1 2) := by
  have h := new2QWithParam_eval (K := Nat) (V := Nat) (r := 1/2) (g := 1)
    (show (0:Int) < 2 by norm_num) (by norm_num) (by norm_num) (by norm_num)
    (by norm_num) (by
      rw [show Rat.floor (((2:Int) : ℚ) * 1) = Int.floor (((2:Int) : ℚ) * 1) from rfl]
      norm_num)
  rw [h]
  rw [show Rat.floor (((2:Int) : ℚ) * 1) = Int.floor (((2:Int) : ℚ) * 1) from rfl]
  rw [show Rat.floor (((2:Int) : ℚ) * (1/2)) = Int.floor (((2:Int) : ℚ) * (1/2)) from rfl]
  norm_num

/-- Anatomy of a successful 2Q construction: the validity conditions must
hold, the ghost capacity must be positive (otherwise the ghost sub-cache
constructor reports InvalidSize), and the result is the fresh cache. -/
theorem new2QWithParam_ok {size : Int} {r g : ℚ} {c0 : TwoQueueCache K V}
    (h : New2QWithParam size r g = .ok c0) :
    0 < size ∧ 0 ≤ r ∧ r ≤ 1 ∧ 0 ≤ g ∧ g ≤ 1 ∧
    0 < Rat.floor ((size : ℚ) * g) ∧
    c0 = mkFresh size (Rat.floor ((size : ℚ) * r)) (Rat.floor ((size : ℚ) * g)) := by
  unfold New2QWithParam at h
  by_cases h1 : size ≤ 0
  · rw [if_pos h1] at h
    simp at h
  rw [if_neg h1] at h
  by_cases h2 : r < 0 ∨ r > 1
  · rw [if_pos h2] at h
    simp at h
  rw [if_neg h2] at h
  by_cases h3 : g < 0 ∨ g > 1
  · rw [if_pos h3] at h
    simp at h
  rw [if_neg h3] at h
  push_neg at h2 h3
  rw [NewLRU_pos h1] at h
  by_cases he : Rat.floor ((size : ℚ) * g) ≤ 0
  · simp only [bind, Except.bind, NewLRU, if_pos he, Functor.map,
      Except.map] at h
    simp at h
  · simp only [bind, Except.bind, NewLRU, if_neg he, Functor.map, Except.map,
      pure, Except.pure, Except.ok.injEq] at h
    refine ⟨by omega, h2.1, h2.2, h3.1, h3.2, by omega, ?_⟩
    rw [← h]
    rfl

theorem add_size (c : TwoQueueCache K V) (k : K) (v : V) :
    (c.add k v).size = c.size := by
  unfold TwoQueueCache.add
  split
  · rfl
  · split
    · rfl
    · split
      · exact ensureSpace_size c true
      · exact ensureSpace_size c false

theorem get_size (c : TwoQueueCache K V) (k : K) :
    (c.get k).1.size = c.size := by
  unfold TwoQueueCache.get
  split
  · rfl
  · split <;> rfl

theorem remove_size (c : TwoQueueCache K V) (k : K) :
    (c.remove k).size = c.size := by
  unfold TwoQueueCache.remove
  dsimp only
  split
  · rfl
  · split
    · rfl
    · split <;> rfl

theorem run_size (ops : List (TQOp K V)) (c : TwoQueueCache K V) :
    (TQRun ops c).size = c.size := by
  induction ops generalizing c with
  | nil => rfl
  | cons op rest ih =>
    have hstep : (TQOp.apply c op).size = c.size := by
      cases op with
      | add k v => exact add_size c k v
      | get k => exact get_size c k
      | remove k => exact remove_size c k
      | purge => rfl
    calc (TQRun rest (TQOp.apply c op)).size = (TQOp.apply c op).size := ih _
    _ = c.size := hstep

theorem inv_mkFresh {size recentSize evictSize : Int}
    (h1 : 0 < size) (h2 : recentSize < size) :
    TQInv (mkFresh (K := K) (V := V) size recentSize evictSize) :=
  ⟨rfl, rfl, h1, h2, by simp [mkFresh], by simp [mkFresh],
    by intro p hp; simp [mkFresh] at hp, by
      simp [mkFresh, TwoQueueCache.lenTotal, LRU.len]
      omega⟩

/-- Claim C1, counterexample: with the LRU core constructor modelled from
the spec (InvalidSize for capacity ≤ 0), `New2QWithParam(1, 0.25, 0.5)`
has size > 0 and both ratios inside [0,1], yet fails, because
`floor(size * ghostRatio) = 0` makes the ghost sub-cache constructor
reject its capacity.  This refutes the claim that construction succeeds
for every size > 0 and ratios in [0,1], in particular when
`floor(size * ghostRatio) = 0`. -/
theorem new2QWithParam_ghost_zero_fails :
    New2QWithParam (K := Nat) (V := Nat) 1 (1/4) (1/2) =
      Except.error TQError.invalidSize ∧
    (0 : Int) < 1 ∧ (0 : ℚ) ≤ 1/4 ∧ (1/4 : ℚ) ≤ 1 ∧
    (0 : ℚ) ≤ 1/2 ∧ (1/2 : ℚ) ≤ 1 := by
  refine ⟨construct_one_quarter_half, by norm_num, by norm_num, by norm_num,
    by norm_num, by norm_num⟩

/-- Claim C1 as amended: `New2QWithParam(size, recentRatio, ghostRatio)`
succeeds exactly when size > 0, both ratios lie in [0,1], and additionally
`floor(size * ghostRatio) ≥ 1`; when `floor(size * ghostRatio) = 0` the
ghost sub-cache constructor fails with InvalidSize, so ghost hits are
prevented by failing construction rather than by a degenerate ghost
list. -/
theorem new2QWithParam_ok_iff (size : Int) (r g : ℚ) :
    isOkE (New2QWithParam (K := K) (V := V) size r g) = true ↔
    (0 < size ∧ 0 ≤ r ∧ r ≤ 1 ∧ 0 ≤ g ∧ g ≤ 1 ∧
      0 < Rat.floor ((size : ℚ) * g)) := by
  constructor
  · intro h
    cases hq : New2QWithParam (K := K) (V := V) size r g with
    | error e => rw [hq] at h; simp [isOkE] at h
    | ok c0 =>
      obtain ⟨h1, h2, h3, h4, h5, h6, _⟩ := new2QWithParam_ok hq
      exact ⟨h1, h2, h3, h4, h5, h6⟩
  · rintro ⟨h1, h2, h3, h4, h5, h6⟩
    unfold New2QWithParam
    rw [if_neg (by omega)]
    rw [if_neg (by push_neg; exact ⟨h2, h3⟩)]
    rw [if_neg (by push_neg; exact ⟨h4, h5⟩)]
    rw [NewLRU_pos (by omega)]
    simp only [bind, Except.bind, NewLRU, if_neg (show ¬ Rat.floor ((size : ℚ) * g) ≤ 0 by omega),
      Functor.map, Except.map, pure, Except.pure, isOkE]

/-- Claim C3, counterexample: a freshly constructed cache of size 2 with
recentRatio 1.0 and ghostRatio 1.0 reaches, after `Add 0; Add 1; Add 2;
Add 0` (the last being a ghost re-hit while `frequent` is empty), a state
with `recent.Len + frequent.Len = 3 > 2`, violating the claimed bound. -/
theorem twoQ_size_bound_cex :
    New2QWithParam (K := Nat) (V := Nat) 2 1 1 = Except.ok (mkFresh 2 2 2) ∧
    c3CexState.size = 2 ∧ 2 < c3CexState.lenTotal := by
  refine ⟨construct_two_one_one, by rfl, by decide⟩

/-- Claim C3 as amended: for every successful construction whose
recentRatio is strictly below 1 (so that `recentSize < size`, as with the
defaults), after every operation sequence the key sets of `recent` and
`frequent` are disjoint and `recent.Len + frequent.Len ≤ size`.  (The
counterexample forces the `recentRatio < 1` restriction; key disjointness
itself holds for every configuration.) -/
theorem twoQ_inv_theorem {size : Int} {r g : ℚ} {c0 : TwoQueueCache K V}
    (hr : r < 1) (h : New2QWithParam size r g = .ok c0)
    (ops : List (TQOp K V)) :
    (∀ p ∈ (TQRun ops c0).recent.items,
      (TQRun ops c0).frequent.contains p.1 = false) ∧
    (TQRun ops c0).lenTotal ≤ size := by
  obtain ⟨h1, h2, h3, h4, h5, h6, h7⟩ := new2QWithParam_ok h
  have hfloor : Rat.floor ((size : ℚ) * r) < size := by
    have hlt : (size : ℚ) * r < ((size : Int) : ℚ) := by
      calc (size : ℚ) * r < (size : ℚ) * 1 := by
            apply mul_lt_mul_of_pos_left hr
            exact_mod_cast h1
      _ = ((size : Int) : ℚ) := by rw [mul_one]
    exact Int.floor_lt.2 hlt
  have hinv0 : TQInv c0 := by
    rw [h7]
    exact inv_mkFresh h1 hfloor
  have hinv := inv_run hinv0 ops
  obtain ⟨g1, g2, g3, g4, g5, g6, g7, g8⟩ := hinv
  refine ⟨g7, ?_⟩
  rw [run_size ops c0] at g8
  have hsz : c0.size = size := by rw [h7]; rfl
  rw [hsz] at g8
  exact g8

/-- Witness for the amended claim C3 at a concrete configuration. -/
theorem twoQ_inv_theorem_witness :
    (∀ p ∈ (TQRun [TQOp.add 0 0, TQOp.add 1 1, TQOp.add 2 2, TQOp.get 1]
        (mkFresh (K := Nat) (V := Nat) 2 0 2)).recent.items,
      (TQRun [TQOp.add 0 0, TQOp.add 1 1, TQOp.add 2 2, TQOp.get 1]
        (mkFresh (K := Nat) (V := Nat) 2 0 2)).frequent.contains p.1 = false) ∧
    (TQRun [TQOp.add 0 0, TQOp.add 1 1, TQOp.add 2 2, TQOp.get 1]
        (mkFresh (K := Nat) (V := Nat) 2 0 2)).lenTotal ≤ 2 :=
  twoQ_inv_theorem (r := 0) (g := 1) (by norm_num) construct_two_zero_one
    [TQOp.add 0 0, TQOp.add 1 1, TQOp.add 2 2, TQOp.get 1]

/-- Claim C7: on a 2Q cache of size 2 with recentRatio 0.5 and ghostRatio
1.0, `Add A; Add B; Add C` evicts A from `recent` into the ghost list, and
a subsequent `Add A` puts A into `frequent` (not `recent`) and removes it
from `recentEvict`. -/
theorem twoQ_ghost_rehit_scenario :
    New2QWithParam (K := Nat) (V := Nat) 2 (1/2) 1 = Except.ok (mkFresh 2 1 2) ∧
    (TQRun [TQOp.add 0 0, TQOp.add 1 1, TQOp.add 2 2]
      (mkFresh 2 1 2)).recent.contains 0 = false ∧
    (TQRun [TQOp.add 0 0, TQOp.add 1 1, TQOp.add 2 2]
      (mkFresh 2 1 2)).recentEvict.contains 0 = true ∧
    (TQRun [TQOp.add 0 0, TQOp.add 1 1, TQOp.add 2 2, TQOp.add 0 5]
      (mkFresh 2 1 2)).frequent.contains 0 = true ∧
    (TQRun [TQOp.add 0 0, TQOp.add 1 1, TQOp.add 2 2, TQOp.add 0 5]
      (mkFresh 2 1 2)).recent.contains 0 = false ∧
    (TQRun [TQOp.add 0 0, TQOp.add 1 1, TQOp.add 2 2, TQOp.add 0 5]
      (mkFresh 2 1 2)).recentEvict.contains 0 = false := by
  refine ⟨construct_two_half_one, by decide, by decide, by decide, by decide,
    by decide⟩

theorem last_key_not_in_dropLast {l : List (K × V)}
    (hn : (l.map Prod.fst).Nodup) {p : K × V} (hL : l.getLast? = some p) :
    ∀ q ∈ l.dropLast, q.1 ≠ p.1 := by
  have hne : l ≠ [] := by
    intro he
    rw [he] at hL
    simp at hL
  have hc := List.dropLast_concat_getLast hne
  have hp : l.getLast hne = p := by
    have h2 := List.getLast?_eq_getLast l hne
    rw [hL] at h2
    exact (Option.some.inj h2).symm
  intro q hq he
  have hql : p.1 ∈ l.dropLast.map Prod.fst := by
    rw [← he]
    exact List.mem_map.2 ⟨q, hq, rfl⟩
  have h3 := congrArg (List.map Prod.fst) hc
  simp only [List.map_append, List.map_cons, List.map_nil] at h3
  rw [hp] at h3
  rw [← h3] at hn
  rcases List.nodup_append.1 hn with ⟨hn1, hn2, hdisj⟩
  exact hdisj hql (by simp)

/-- Claim C2, counterexample: in the reachable state obtained from a fresh
size-2 cache with recentSize 0 by `Add 0; Add 0; Add 1; Add 1` (which
leaves `recent` empty and `frequent` full), `ensureSpace(false)` satisfies
the claim's trigger `recent.len == recentSize && !recentEvict`, yet the
code evicts the oldest entry of `frequent` and records no ghost, because
of the `recentLen > 0` guard the claim omits. -/
theorem ensureSpace_empty_recent_cex :
    New2QWithParam (K := Nat) (V := Nat) 2 0 1 = Except.ok (mkFresh 2 0 2) ∧
    ¬ ensureSpaceClaimC2 c2CexState false (c2CexState.ensureSpace false) :=
  ⟨construct_two_zero_one, by decide⟩

/-- Claim C2 as amended: `ensureSpace(recentEvict)` changes nothing below
capacity; otherwise, when `recent.len > 0` and (`recent.len > recentSize`
or `recent.len == recentSize` with the flag false) it evicts the oldest
entry of `recent` and records that key as a zero-valued ghost; in every
other over-capacity state — in particular whenever `recent` is empty — it
evicts the oldest entry of `frequent` and records no ghost. -/
theorem ensureSpace_spec_amended (c : TwoQueueCache K V) (flag : Bool) :
    ensureSpaceAmendedC2 c flag (c.ensureSpace flag) := by
  unfold ensureSpaceAmendedC2
  by_cases hlt : c.lenTotal < c.size
  · refine ⟨fun _ => ?_, fun hge => absurd hlt hge⟩
    unfold TwoQueueCache.ensureSpace
    dsimp only
    rw [if_pos (show (c.recent.len : Int) + c.frequent.len < c.size from hlt)]
  · refine ⟨fun h => absurd h hlt, fun _ => ⟨?_, ?_⟩⟩
    · rintro ⟨hpos, hcond⟩
      unfold TwoQueueCache.ensureSpace
      dsimp only
      rw [if_neg (show ¬ ((c.recent.len : Int) + c.frequent.len < c.size) from hlt)]
      rw [if_pos (show ((c.recent.len : Int) > 0 ∧
        ((c.recent.len : Int) > c.recentSize ∨
          ((c.recent.len : Int) = c.recentSize ∧ flag = false))) from ⟨hpos, hcond⟩)]
      unfold ghostRecordClaim
      have hpos2 : c.recent.items ≠ [] := by
        intro he
        unfold LRU.len at hpos
        rw [he] at hpos
        simp at hpos
      cases hL : c.recent.items.getLast? with
      | none => exact absurd (List.getLast?_eq_none_iff.1 hL) hpos2
      | some p =>
        have hro : c.recent.removeOldest =
            ({ c.recent with items := c.recent.items.dropLast }, some p, [p]) := by
          unfold LRU.removeOldest
          rw [hL]
        rw [hro]
        dsimp only
        rfl
    · rintro hncond
      unfold TwoQueueCache.ensureSpace
      dsimp only
      rw [if_neg (show ¬ ((c.recent.len : Int) + c.frequent.len < c.size) from hlt)]
      rw [if_neg (show ¬ ((c.recent.len : Int) > 0 ∧
        ((c.recent.len : Int) > c.recentSize ∨
          ((c.recent.len : Int) = c.recentSize ∧ flag = false))) from hncond)]

/-- Claim C10: when `ensureSpace` runs with `recent` empty and the cache
at (or beyond) capacity, it evicts the oldest entry of `frequent`, leaves
`recent` and `recentEvict` untouched, and strictly decreases the total
(maintaining the bound); below capacity it changes nothing; and a key can
only enter `recentEvict` during `ensureSpace` if it was a key of `recent`
that the call actually removed from `recent`. -/
theorem ensureSpace_empty_recent_frequent (c : TwoQueueCache K V) (flag : Bool) :
    (c.recent.items = [] → c.size ≤ c.lenTotal →
      c.ensureSpace flag = { c with frequent := c.frequent.removeOldest.1 } ∧
      (0 < c.size → (c.ensureSpace flag).lenTotal + 1 = c.lenTotal)) ∧
    (c.lenTotal < c.size → c.ensureSpace flag = c) ∧
    ((c.recent.items.map Prod.fst).Nodup →
      ∀ k, (c.ensureSpace flag).recentEvict.contains k = true →
        c.recentEvict.contains k = true ∨
        (c.recent.contains k = true ∧
          (c.ensureSpace flag).recent.contains k = false)) := by
  refine ⟨?_, ?_, ?_⟩
  · intro hre hge
    have heq : c.ensureSpace flag = { c with frequent := c.frequent.removeOldest.1 } := by
      unfold TwoQueueCache.ensureSpace
      dsimp only
      rw [if_neg (show ¬ ((c.recent.len : Int) + c.frequent.len < c.size) from by
        unfold TwoQueueCache.lenTotal at hge
        omega)]
      rw [if_neg (show ¬ ((c.recent.len : Int) > 0 ∧
        ((c.recent.len : Int) > c.recentSize ∨
          ((c.recent.len : Int) = c.recentSize ∧ flag = false))) from by
        rintro ⟨hpos, _⟩
        unfold LRU.len at hpos
        rw [hre] at hpos
        simp at hpos)]
    refine ⟨heq, ?_⟩
    intro hsz
    rw [heq]
    simp only [TwoQueueCache.lenTotal, LRU.len] at hge ⊢
    rw [removeOldest_items, List.length_dropLast]
    rw [hre] at hge ⊢
    simp only [List.length_nil] at hge ⊢
    omega
  · intro hlt
    unfold TwoQueueCache.ensureSpace
    dsimp only
    rw [if_pos (show (c.recent.len : Int) + c.frequent.len < c.size from hlt)]
  · intro hn k hk
    unfold TwoQueueCache.ensureSpace at hk ⊢
    dsimp only at hk ⊢
    by_cases h1 : (c.recent.len : Int) + c.frequent.len < c.size
    · rw [if_pos h1] at hk
      exact Or.inl hk
    · rw [if_neg h1] at hk ⊢
      by_cases h2 : (c.recent.len : Int) > 0 ∧
          ((c.recent.len : Int) > c.recentSize ∨
            ((c.recent.len : Int) = c.recentSize ∧ flag = false))
      · rw [if_pos h2] at hk ⊢
        have hpos2 : c.recent.items ≠ [] := by
          intro he
          have := h2.1
          unfold LRU.len at this
          rw [he] at this
          simp at this
        cases hL : c.recent.items.getLast? with
        | none => exact absurd (List.getLast?_eq_none_iff.1 hL) hpos2
        | some p =>
          have hro : c.recent.removeOldest =
              ({ c.recent with items := c.recent.items.dropLast }, some p, [p]) := by
            unfold LRU.removeOldest
            rw [hL]
          rw [hro] at hk ⊢
          dsimp only at hk ⊢
          rcases contains_add_imp hk with he | he
          · refine Or.inr ⟨?_, ?_⟩
            · rw [he]
              exact contains_iff_exists.2 ⟨p, List.mem_of_mem_getLast? hL, rfl⟩
            · rw [he]
              rw [contains_eq_false_iff]
              exact last_key_not_in_dropLast hn hL
          · exact Or.inl he
      · rw [if_neg h2] at hk
        exact Or.inl hk

theorem peek_add_self {c : LRU K V} {k : K} {v : V} (h : 1 ≤ c.capacity) :
    (c.add k v).1.peek k = some v := by
  by_cases hc : c.contains k = true
  · rw [add_eq_pos hc]
    simp [LRU.peek, List.find?, keyIs]
  · rw [Bool.not_eq_true] at hc
    by_cases h2 : c.capacity < (c.items.length : Int) + 1
    · rw [add_eq_fresh_evict hc h2]
      have hne : c.items ≠ [] := by
        intro he
        rw [he] at h2
        simp at h2
        omega
      show LRU.peek ⟨c.capacity, ((k, v) :: c.items).dropLast⟩ k = some v
      rw [List.dropLast_cons_of_ne_nil hne]
      simp [LRU.peek, List.find?, keyIs]
    · rw [add_eq_fresh_small hc (by omega)]
      simp [LRU.peek, List.find?, keyIs]

/-- Claim C4: 2Q `Add(k,v)` follows the four-step admission algorithm
top-down.  If `k` is in `frequent`, only `frequent` is updated (an
overwriting, recency-touching add, so the new value is peekable and the
length is unchanged).  Else if `k` is in `recent`, `k` is removed from
`recent` (gone entirely when the keys of `recent` are duplicate-free) and
`(k,v)` is added to `frequent`.  Else on a ghost hit, `ensureSpace(true)`
runs first, then `k` is removed from `recentEvict` and added to
`frequent`.  Else `ensureSpace(false)` runs and `(k,v)` is added to
`recent`. -/
theorem twoQ_add_steps (c : TwoQueueCache K V) (k : K) (v : V) :
    (c.frequent.contains k = true →
      c.add k v = { c with frequent := (c.frequent.add k v).1 } ∧
      (1 ≤ c.frequent.capacity → (c.add k v).frequent.peek k = some v) ∧
      (c.add k v).frequent.len = c.frequent.len) ∧
    (c.frequent.contains k = false → c.recent.contains k = true →
      c.add k v = { c with recent := (c.recent.remove k).1,
                           frequent := (c.frequent.add k v).1 } ∧
      ((c.recent.items.map Prod.fst).Nodup →
        (c.add k v).recent.contains k = false) ∧
      (1 ≤ c.frequent.capacity → (c.add k v).frequent.peek k = some v)) ∧
    (c.frequent.contains k = false → c.recent.contains k = false →
      c.recentEvict.contains k = true →
      c.add k v = { c.ensureSpace true with
        recentEvict := ((c.ensureSpace true).recentEvict.remove k).1,
        frequent := ((c.ensureSpace true).frequent.add k v).1 }) ∧
    (c.frequent.contains k = false → c.recent.contains k = false →
      c.recentEvict.contains k = false →
      c.add k v = { c.ensureSpace false with
        recent := ((c.ensureSpace false).recent.add k v).1 }) := by
  refine ⟨?_, ?_, ?_, ?_⟩
  · intro hf
    have he : c.add k v = { c with frequent := (c.frequent.add k v).1 } := by
      unfold TwoQueueCache.add
      rw [if_pos hf]
    refine ⟨he, ?_, ?_⟩
    · intro hcap
      rw [he]
      exact peek_add_self hcap
    · rw [he]
      show (c.frequent.add k v).1.items.length = c.frequent.items.length
      exact length_add_pos hf
  · intro hf hr
    have he : c.add k v =
        { c with recent := (c.recent.remove k).1, frequent := (c.frequent.add k v).1 } := by
      unfold TwoQueueCache.add
      rw [if_neg (by rw [hf]; simp), if_pos hr]
    refine ⟨he, ?_, ?_⟩
    · intro hn
      rw [he]
      exact contains_remove_self hn
    · intro hcap
      rw [he]
      exact peek_add_self hcap
  · intro hf hr hg
    unfold TwoQueueCache.add
    rw [if_neg (by rw [hf]; simp), if_neg (by rw [hr]; simp), if_pos hg]
  · intro hf hr hg
    unfold TwoQueueCache.add
    rw [if_neg (by rw [hf]; simp), if_neg (by rw [hr]; simp),
      if_neg (by rw [hg]; simp)]

/-- Claim C5: 2Q `Get(k)` returns the stored value touching recency in
`frequent` when `k` is in `frequent`; when `k` is only in `recent` it
peeks the value there (no recency touch before the transfer), removes `k`
from `recent`, adds it to `frequent` and returns it; otherwise — in
particular when `k` is only a ghost in `recentEvict` — it is a miss that
returns no value and leaves the cache unchanged. -/
theorem twoQ_get_spec (c : TwoQueueCache K V) (k : K) :
    (c.frequent.contains k = true →
      c.get k = ({ c with frequent := (c.frequent.get k).1 }, c.frequent.peek k) ∧
      (c.frequent.peek k).isSome = true) ∧
    (c.frequent.contains k = false → c.recent.contains k = true →
      ∃ v, c.recent.peek k = some v ∧
        c.get k = ({ c with recent := (c.recent.remove k).1,
                            frequent := (c.frequent.add k v).1 }, some v)) ∧
    (c.frequent.contains k = false → c.recent.contains k = false →
      c.get k = (c, none)) := by
  refine ⟨?_, ?_, ?_⟩
  · intro hf
    obtain hs := contains_iff_find?.1 hf
    cases hfind : c.frequent.items.find? (keyIs k) with
    | none => rw [hfind] at hs; simp at hs
    | some p =>
      constructor
      · unfold TwoQueueCache.get
        rw [get_eq_some hfind]
        unfold LRU.peek
        rw [hfind]
        rfl
      · unfold LRU.peek
        rw [hfind]
        rfl
  · intro hf hr
    obtain hs := contains_iff_find?.1 hr
    cases hfind : c.recent.items.find? (keyIs k) with
    | none => rw [hfind] at hs; simp at hs
    | some p =>
      refine ⟨p.2, ?_, ?_⟩
      · unfold LRU.peek
        rw [hfind]
        rfl
      · unfold TwoQueueCache.get
        rw [get_eq_none hf]
        dsimp only
        have hpeek : c.recent.peek k = some p.2 := by
          unfold LRU.peek
          rw [hfind]
          rfl
        rw [hpeek]
  · intro hf hr
    unfold TwoQueueCache.get
    rw [get_eq_none hf]
    dsimp only
    have hpeek : c.recent.peek k = none := by
      unfold LRU.peek
      rw [find?_eq_none_of_not_contains hr]
      rfl
    rw [hpeek]

/-- Witness for claim C4 at concrete caches exercising all four branches
of the admission algorithm. -/
theorem twoQ_add_steps_witness :
    (addW1.add 0 9 = { addW1 with frequent := (addW1.frequent.add 0 9).1 }) ∧
    (addW2.add 0 9 =
      { addW2 with recent := (addW2.recent.remove 0).1,
                   frequent := (addW2.frequent.add 0 9).1 }) ∧
    (addW3.add 0 9 = { addW3.ensureSpace true with
        recentEvict := ((addW3.ensureSpace true).recentEvict.remove 0).1,
        frequent := ((addW3.ensureSpace true).frequent.add 0 9).1 }) ∧
    ((mkFresh (K := Nat) (V := Nat) 2 1 2).add 5 9 =
      { (mkFresh (K := Nat) (V := Nat) 2 1 2).ensureSpace false with
        recent := (((mkFresh (K := Nat) (V := Nat) 2 1 2).ensureSpace false).recent.add 5 9).1 }) :=
  ⟨((twoQ_add_steps addW1 0 9).1 (by decide)).1,
    ((twoQ_add_steps addW2 0 9).2.1 (by decide) (by decide)).1,
    (twoQ_add_steps addW3 0 9).2.2.1 (by decide) (by decide) (by decide),
    (twoQ_add_steps (mkFresh 2 1 2) 5 9).2.2.2 (by decide) (by decide) (by decide)⟩

/-- Witness for claim C5 at concrete caches exercising the three cases of
`Get`. -/
theorem twoQ_get_spec_witness :
    (addW1.get 0 =
      ({ addW1 with frequent := (addW1.frequent.get 0).1 }, addW1.frequent.peek 0)) ∧
    (∃ v, addW2.recent.peek 0 = some v ∧
      addW2.get 0 = ({ addW2 with recent := (addW2.recent.remove 0).1,
                                  frequent := (addW2.frequent.add 0 v).1 }, some v)) ∧
    (addW3.get 0 = (addW3, none)) :=
  ⟨((twoQ_get_spec addW1 0).1 (by decide)).1,
    (twoQ_get_spec addW2 0).2.1 (by decide) (by decide),
    (twoQ_get_spec addW3 0).2.2 (by decide) (by decide)⟩

/-- Witness for the amended claim C2 at the concrete reachable state of
the counterexample. -/
theorem ensureSpace_spec_amended_witness :
    ensureSpaceAmendedC2 c2CexState false (c2CexState.ensureSpace false) :=
  ensureSpace_spec_amended c2CexState false

/-- Witness for claim C10 at the concrete reachable state with `recent`
empty and the cache full. -/
theorem ensureSpace_empty_recent_frequent_witness :
    c2CexState.ensureSpace false =
      { c2CexState with frequent := c2CexState.frequent.removeOldest.1 } ∧
    (c2CexState.ensureSpace false).lenTotal + 1 = c2CexState.lenTotal := by
  have h := ensureSpace_empty_recent_frequent c2CexState false
  have h1 := h.1 (by decide) (by decide)
  exact ⟨h1.1, h1.2 (by decide)⟩

/-! Lemmas for the thread-safe facade (claim C6). -/

theorem add_fired (c : LRU K V) (k : K) (v : V) :
    ((c.add k v).2.1 = true → ∃ p, (c.add k v).2.2 = [p]) ∧
    ((c.add k v).2.1 = false → (c.add k v).2.2 = []) := by
  unfold LRU.add
  split
  · exact ⟨fun h => by simp at h, fun _ => rfl⟩
  · dsimp only
    split
    · exact ⟨fun _ => ⟨_, rfl⟩, fun h => by simp at h⟩
    · exact ⟨fun h => by simp at h, fun _ => rfl⟩

theorem remove_fired (c : LRU K V) (k : K) :
    ((c.remove k).2.1 = true → ∃ p, (c.remove k).2.2 = [p]) ∧
    ((c.remove k).2.1 = false → (c.remove k).2.2 = []) := by
  unfold LRU.remove
  cases c.items.find? (keyIs k) with
  | none => exact ⟨fun h => by simp at h, fun _ => rfl⟩
  | some p => exact ⟨fun _ => ⟨p, rfl⟩, fun h => by simp at h⟩

theorem removeOldest_fired (c : LRU K V) :
    (c.removeOldest.2.1.isSome = true → ∃ p, c.removeOldest.2.2 = [p]) ∧
    (c.removeOldest.2.1.isSome = false → c.removeOldest.2.2 = []) := by
  unfold LRU.removeOldest
  cases c.items.getLast? with
  | none => exact ⟨fun h => by simp at h, fun _ => rfl⟩
  | some p => exact ⟨fun _ => ⟨p, rfl⟩, fun h => by simp at h⟩

theorem resize_count_eq (c : LRU K V) (n : Int) :
    (c.resize n).2.1 = ((c.resize n).2.2.length : Int) := rfl

/-- Per-operation accounting for the facade: starting from an empty
deferral buffer, the pairs the operation passes to the user callback are
exactly those the core removed during the operation, and the buffer is
empty again at return. -/
theorem step_emitted {c : Cache K V} (hb : c.buf = []) (op : COp K V) :
    (op.apply c).2.1 = (op.apply c).2.2 ∧ (op.apply c).1.buf = [] := by
  cases op with
  | add k v =>
    unfold COp.apply Cache.addC
    dsimp only
    rw [hb]
    simp only [List.nil_append]
    by_cases hev : (c.lru.add k v).2.1 = true
    · rw [if_pos hev]
      obtain ⟨p, hp⟩ := (add_fired c.lru k v).1 hev
      rw [hp]
      exact ⟨rfl, rfl⟩
    · rw [if_neg hev]
      have h2 := (add_fired c.lru k v).2 (by
        cases h : (c.lru.add k v).2.1
        · rfl
        · exact absurd h hev)
      exact ⟨h2.symm, h2⟩
  | get k =>
    unfold COp.apply Cache.getC
    exact ⟨rfl, hb⟩
  | remove k =>
    unfold COp.apply Cache.removeC
    dsimp only
    rw [hb]
    simp only [List.nil_append]
    by_cases hev : (c.lru.remove k).2.1 = true
    · rw [if_pos hev]
      obtain ⟨p, hp⟩ := (remove_fired c.lru k).1 hev
      rw [hp]
      exact ⟨rfl, rfl⟩
    · rw [if_neg hev]
      have h2 := (remove_fired c.lru k).2 (by
        cases h : (c.lru.remove k).2.1
        · rfl
        · exact absurd h hev)
      exact ⟨h2.symm, h2⟩
  | removeOldest =>
    unfold COp.apply Cache.removeOldestC
    dsimp only
    rw [hb]
    simp only [List.nil_append]
    by_cases hev : c.lru.removeOldest.2.1.isSome = true
    · rw [if_pos hev]
      obtain ⟨p, hp⟩ := (removeOldest_fired c.lru).1 hev
      rw [hp]
      exact ⟨rfl, rfl⟩
    · rw [if_neg hev]
      have h2 := (removeOldest_fired c.lru).2 (by
        cases h : c.lru.removeOldest.2.1.isSome
        · rfl
        · exact absurd h hev)
      exact ⟨h2.symm, h2⟩
  | resize n =>
    unfold COp.apply Cache.resizeC
    dsimp only
    rw [hb]
    simp only [List.nil_append]
    by_cases hev : (c.lru.resize n).2.1 > 0
    · rw [if_pos hev]
      exact ⟨rfl, rfl⟩
    · rw [if_neg hev]
      have h2 : (c.lru.resize n).2.2 = [] := by
        rw [resize_count_eq] at hev
        cases h : (c.lru.resize n).2.2 with
        | nil => rfl
        | cons a t =>
          rw [h] at hev
          simp at hev
      exact ⟨h2.symm, h2⟩
  | purge =>
    unfold COp.apply Cache.purgeC
    dsimp only
    rw [hb]
    exact ⟨by simp, by simp⟩

/-- Claim C6: on the thread-safe LRU facade with a registered eviction
callback, for every operation sequence the pairs passed to the user
callback are exactly — once each, in buffering order, grouped after the
operation that caused them — the entries removed by capacity-driven
eviction in Add, by explicit Remove, by RemoveOldest, by Resize, and by
Purge combined; in particular the invocation count equals the removal
count. -/
theorem cache_callback_count {size : Int} {c0 : Cache K V}
    (h : NewWithEvict size = .ok c0) (ops : List (COp K V)) :
    (CRun ops c0).2.1 = (CRun ops c0).2.2 ∧
    (CRun ops c0).2.1.length = (CRun ops c0).2.2.length := by
  have hb : c0.buf = [] := by
    unfold NewWithEvict NewLRU at h
    by_cases hs : size ≤ 0
    · rw [if_pos hs] at h
      simp [Except.map] at h
    · rw [if_neg hs] at h
      simp only [Except.map] at h
      have h2 := Except.ok.inj h
      rw [← h2]
  have main : ∀ (ops : List (COp K V)) (c : Cache K V), c.buf = [] →
      (CRun ops c).2.1 = (CRun ops c).2.2 := by
    intro ops
    induction ops with
    | nil => intro c hc; rfl
    | cons op rest ih =>
      intro c hc
      unfold CRun
      dsimp only
      have hstep := step_emitted hc op
      rw [hstep.1, ih _ hstep.2]
  refine ⟨main ops c0 hb, ?_⟩
  rw [main ops c0 hb]

/-- Witness for claim C6 on a concrete operation sequence exercising
capacity eviction, explicit removal, remove-oldest, resize and purge. -/
theorem cache_callback_count_witness :
    (CRun [COp.add 0 0, COp.add 1 1, COp.add 2 2, COp.remove 1,
        COp.add 3 3, COp.removeOldest, COp.add 4 4, COp.resize 1, COp.purge]
      (⟨⟨2, []⟩, []⟩ : Cache Nat Nat)).2.1 =
    (CRun [COp.add 0 0, COp.add 1 1, COp.add 2 2, COp.remove 1,
        COp.add 3 3, COp.removeOldest, COp.add 4 4, COp.resize 1, COp.purge]
      (⟨⟨2, []⟩, []⟩ : Cache Nat Nat)).2.2 :=
  (cache_callback_count (show NewWithEvict 2 = Except.ok (⟨⟨2, []⟩, []⟩ : Cache Nat Nat) from by
    unfold NewWithEvict NewLRU
    rw [if_neg (by omega)]
    rfl)
    [COp.add 0 0, COp.add 1 1, COp.add 2 2, COp.remove 1,
      COp.add 3 3, COp.removeOldest, COp.add 4 4, COp.resize 1, COp.purge]).1

/-! Lemmas for the intrusive recency list (claims C8 and C9). -/

theorem setN_same (s : lruList K V) (i : Nat) (f : entry K V → entry K V) :
    (s.setN i f).nodes i = f (s.nodes i) := by
  unfold lruList.setN
  simp

theorem setN_other (s : lruList K V) {i j : Nat} (f : entry K V → entry K V)
    (h : j ≠ i) : (s.setN i f).nodes j = s.nodes j := by
  unfold lruList.setN
  simp [h]

theorem setN_updPrev_next (s : lruList K V) (j : Nat) (x : Option Nat)
    (i : Nat) :
    ((s.setN j (fun nd => { nd with prev := x })).nodes i).next =
      (s.nodes i).next := by
  by_cases h : i = j
  · rw [h, setN_same]
  · rw [setN_other _ _ h]

theorem setN_updNext_prev (s : lruList K V) (j : Nat) (x : Option Nat)
    (i : Nat) :
    ((s.setN j (fun nd => { nd with next := x })).nodes i).prev =
      (s.nodes i).prev := by
  by_cases h : i = j
  · rw [h, setN_same]
  · rw [setN_other _ _ h]

theorem setN_updPrev_list (s : lruList K V) (j : Nat) (x : Option Nat)
    (i : Nat) :
    ((s.setN j (fun nd => { nd with prev := x })).nodes i).list =
      (s.nodes i).list := by
  by_cases h : i = j
  · rw [h, setN_same]
  · rw [setN_other _ _ h]

theorem setN_updNext_list (s : lruList K V) (j : Nat) (x : Option Nat)
    (i : Nat) :
    ((s.setN j (fun nd => { nd with next := x })).nodes i).list =
      (s.nodes i).list := by
  by_cases h : i = j
  · rw [h, setN_same]
  · rw [setN_other _ _ h]

theorem chain_tail {s : lruList K V} {a : Nat} {l : List Nat}
    (h : s.chain (a :: l)) : s.chain l := by
  cases l with
  | nil => trivial
  | cons b rest => exact h.2

theorem chain_adj {s : lruList K V} :
    ∀ (l1 : List Nat) {x y : Nat} {l2 : List Nat},
    s.chain (l1 ++ x :: y :: l2) → s.link x y := by
  intro l1
  induction l1 with
  | nil => exact fun h => h.1
  | cons a rest ih => exact fun h => ih (chain_tail h)

theorem chain_frame {s t : lruList K V} :
    ∀ (l : List Nat),
    (∀ i ∈ l.dropLast, (t.nodes i).next = (s.nodes i).next) →
    (∀ i ∈ l.drop 1, (t.nodes i).prev = (s.nodes i).prev) →
    (t.chain l ↔ s.chain l) := by
  intro l
  induction l with
  | nil => intro _ _; exact Iff.rfl
  | cons a rest ih =>
    intro hnext hprev
    cases rest with
    | nil => exact Iff.rfl
    | cons b rest2 =>
      show (t.link a b ∧ t.chain (b :: rest2)) ↔
        (s.link a b ∧ s.chain (b :: rest2))
      have hab : t.link a b ↔ s.link a b := by
        unfold lruList.link
        rw [hnext a (by
          rw [List.dropLast_cons_of_ne_nil (by simp)]
          exact List.mem_cons_self a _)]
        rw [hprev b (by simp)]
      have hrest : t.chain (b :: rest2) ↔ s.chain (b :: rest2) := by
        refine ih ?_ ?_
        · intro i hi
          refine hnext i ?_
          rw [List.dropLast_cons_of_ne_nil (by simp)]
          exact List.mem_cons_of_mem a hi
        · intro i hi
          refine hprev i ?_
          simp only [List.drop_one, List.tail_cons] at hi ⊢
          exact List.mem_of_mem_tail hi
      rw [hab, hrest]

/-- Core unlinking lemma: if the heap `t` differs from `s` only by the
splice `p.next := q`, `q.prev := p` (plus arbitrary changes to the
unlinked node `n` and to nodes outside the chain), then removing `n` from
a chain of `s` yields a chain of `t`. -/
theorem chain_unlink {s t : lruList K V} :
    ∀ (u : List Nat) (a : Nat) {n : Nat} {w : List Nat} {z : Nat} {p q : Nat},
    s.chain (a :: u ++ n :: w ++ [z]) →
    (a :: u ++ n :: w).Nodup →
    z ∉ u ++ n :: w →
    (a :: u).getLast? = some p →
    (w ++ [z]).head? = some q →
    (t.nodes p).next = some q →
    (t.nodes q).prev = some p →
    (∀ i ∈ a :: u ++ w, i ≠ p → i ≠ n → (t.nodes i).next = (s.nodes i).next) →
    (∀ i ∈ u ++ w ++ [z], i ≠ q → i ≠ n → (t.nodes i).prev = (s.nodes i).prev) →
    t.chain (a :: u ++ w ++ [z]) := by
  intro u
  induction u with
  | nil =>
    intro a n w z p q hch hnodup hz hp hq hpn hqp hfn hfp
    have hpa : p = a := by
      simp only [List.getLast?_singleton] at hp
      exact (Option.some.inj hp).symm
    subst hpa
    cases w with
    | nil =>
      have hqz : q = z := by
        simp only [List.nil_append, List.head?_cons] at hq
        exact (Option.some.inj hq).symm
      subst hqz
      exact ⟨⟨hpn, hqp⟩, trivial⟩
    | cons y w2 =>
      have hqy : q = y := by
        simp only [List.cons_append, List.head?_cons] at hq
        exact (Option.some.inj hq).symm
      subst hqy
      refine ⟨⟨hpn, hqp⟩, ?_⟩
      have hold : s.chain (q :: w2 ++ [z]) := chain_tail (chain_tail hch)
      have hnodup2 : (n :: q :: w2).Nodup := (List.nodup_cons.1 hnodup).2
      have hnq : n ∉ q :: w2 := (List.nodup_cons.1 hnodup2).1
      have hqw2 : q ∉ w2 := (List.nodup_cons.1 (List.nodup_cons.1 hnodup2).2).1
      have haw : p ∉ n :: q :: w2 := (List.nodup_cons.1 hnodup).1
      have hzw : z ∉ n :: q :: w2 := hz
      refine (chain_frame (q :: w2 ++ [z]) ?_ ?_).2 hold
      · intro i hi
        have hi2 : i ∈ q :: w2 := by
          rw [show q :: w2 ++ [z] = (q :: w2) ++ [z] from rfl,
            List.dropLast_concat] at hi
          exact hi
        refine hfn i (List.mem_cons_of_mem p hi2) ?_ ?_
        · intro he
          rw [he] at hi2
          exact haw (List.mem_cons_of_mem n hi2)
        · intro he
          rw [he] at hi2
          exact hnq hi2
      · intro i hi
        have hi2 : i ∈ w2 ++ [z] := by simpa using hi
        refine hfp i (List.mem_cons_of_mem q hi2) ?_ ?_
        · intro he
          rw [he] at hi2
          rcases List.mem_append.1 hi2 with h1 | h1
          · exact hqw2 h1
          · exact hzw (by
              rw [← List.mem_singleton.1 h1]
              exact List.mem_cons_of_mem n (List.mem_cons_self q w2))
        · intro he
          rw [he] at hi2
          rcases List.mem_append.1 hi2 with h1 | h1
          · exact hnq (List.mem_cons_of_mem q h1)
          · exact hzw (by
              rw [← List.mem_singleton.1 h1]
              exact List.mem_cons_self n _)
  | cons x u2 ih =>
    intro a n w z p q hch hnodup hz hp hq hpn hqp hfn hfp
    have hax : s.link a x := hch.1
    have hch2 : s.chain (x :: u2 ++ n :: w ++ [z]) := chain_tail hch
    have hnodup2 : (x :: u2 ++ n :: w).Nodup := (List.nodup_cons.1 hnodup).2
    have hanotin : a ∉ (x :: u2) ++ n :: w := (List.nodup_cons.1 hnodup).1
    have hxnotin : x ∉ u2 ++ n :: w := (List.nodup_cons.1 hnodup2).1
    have hz2 : z ∉ u2 ++ n :: w := fun hm => hz (List.mem_cons_of_mem x hm)
    have hp2 : (x :: u2).getLast? = some p := by
      rw [List.getLast?_cons_cons] at hp
      exact hp
    have hpmem : p ∈ x :: u2 := List.mem_of_mem_getLast? hp2
    have htail : t.chain (x :: u2 ++ w ++ [z]) := by
      refine ih x hch2 hnodup2 hz2 hp2 hq hpn hqp ?_ ?_
      · intro i hi hip hin
        exact hfn i (List.mem_cons_of_mem a hi) hip hin
      · intro i hi hiq hin
        exact hfp i (List.mem_cons_of_mem x hi) hiq hin
    refine ⟨?_, htail⟩
    have hanext : (t.nodes a).next = (s.nodes a).next := by
      refine hfn a (List.mem_cons_self a _) ?_ ?_
      · intro he
        exact hanotin (by
          rw [he]
          exact List.mem_append_left _ hpmem)
      · intro he
        exact hanotin (by
          rw [he]
          exact List.mem_append_right _ (List.mem_cons_self n w))
    have hxprev : (t.nodes x).prev = (s.nodes x).prev := by
      refine hfp x ?_ ?_ ?_
      · simp
      · intro he
        have hqm : q ∈ w ++ [z] := List.mem_of_mem_head? hq
        rcases List.mem_append.1 hqm with h1 | h1
        · exact hxnotin (by
            rw [he]
            exact List.mem_append_right _ (List.mem_cons_of_mem n h1))
        · rw [List.mem_singleton.1 h1] at he
          exact hz (by
            rw [← he]
            exact List.mem_cons_self x _)
      · intro he
        exact hxnotin (by
          rw [he]
          exact List.mem_append_right _ (List.mem_cons_self n w))
    exact ⟨by rw [hanext]; exact hax.1, by rw [hxprev]; exact hax.2⟩

/-- Field-level effect of `remove` on a node whose neighbour pointers are
`p` and `q`: the neighbours are spliced together, the removed node's
pointers and list are cleared, everything else is untouched, and the
length drops by one. -/
theorem remove_fields {s : lruList K V} {n p q : Nat}
    (hp : (s.nodes n).prev = some p) (hq : (s.nodes n).next = some q)
    (hnp : n ≠ p) (hnq : n ≠ q) :
    ((s.remove n).nodes p).next = some q ∧
    ((s.remove n).nodes q).prev = some p ∧
    ((s.remove n).nodes n).list = none ∧
    (∀ i, i ≠ p → i ≠ n → ((s.remove n).nodes i).next = (s.nodes i).next) ∧
    (∀ i, i ≠ q → i ≠ n → ((s.remove n).nodes i).prev = (s.nodes i).prev) ∧
    (∀ i, i ≠ n → ((s.remove n).nodes i).list = (s.nodes i).list) ∧
    (s.remove n).len = s.len - 1 ∧
    (s.remove n).rootId = s.rootId ∧ (s.remove n).listId = s.listId := by
  have heq : s.remove n =
      { ((((s.setN p (fun nd => { nd with next := some q })).setN q
          (fun nd => { nd with prev := some p })).setN n
          (fun nd => { nd with next := none })).setN n
          (fun nd => { nd with prev := none })).setN n
          (fun nd => { nd with list := none }) with len := s.len - 1 } := by
    unfold lruList.remove
    rw [hp]
    dsimp only
    rw [hq]
    rw [show ((s.setN p fun nd => { nd with next := some q }).nodes n).next =
      some q from by rw [setN_other _ _ hnp]; exact hq]
    rw [show ((s.setN p fun nd => { nd with next := some q }).nodes n).prev =
      some p from by rw [setN_other _ _ hnp]; exact hp]
    rfl
  rw [heq]
  refine ⟨?_, ?_, ?_, ?_, ?_, ?_, rfl, rfl, rfl⟩
  · dsimp only
    rw [setN_other _ _ hnp.symm, setN_other _ _ hnp.symm, setN_other _ _ hnp.symm]
    by_cases hpq : p = q
    · subst hpq
      rw [setN_same, setN_same]
    · rw [setN_other _ _ (fun he => hpq he), setN_same]
  · dsimp only
    rw [setN_other _ _ hnq.symm, setN_other _ _ hnq.symm, setN_other _ _ hnq.symm]
    rw [setN_same]
  · dsimp only
    rw [setN_same]
  · intro i hip hin
    dsimp only
    rw [setN_other _ _ hin, setN_other _ _ hin, setN_other _ _ hin]
    by_cases hiq : i = q
    · subst hiq
      rw [setN_same, setN_other _ _ hip]
    · rw [setN_other _ _ hiq, setN_other _ _ hip]
  · intro i hiq hin
    dsimp only
    rw [setN_other _ _ hin, setN_other _ _ hin, setN_other _ _ hin]
    rw [setN_other _ _ hiq]
    by_cases hip : i = p
    · subst hip
      rw [setN_same]
    · rw [setN_other _ _ hip]
  · intro i hin
    dsimp only
    rw [setN_other _ _ hin, setN_other _ _ hin, setN_other _ _ hin]
    by_cases hiq : i = q
    · subst hiq
      rw [setN_same]
      by_cases hip : i = p
      · subst hip
        rw [setN_same]
      · rw [setN_other _ _ hip]
    · rw [setN_other _ _ hiq]
      by_cases hip : i = p
      · subst hip
        rw [setN_same]
      · rw [setN_other _ _ hip]

/-- Field-level effect of `pushFront` with a fresh node `e` on an
initialized list whose first node is `h0`: `e` is spliced in between the
root and `h0`, tagged with the list, and everything else is untouched. -/
theorem pushFront_fields {s : lruList K V} {e h0 : Nat} (k : K) (v : V)
    (hroot : (s.nodes s.rootId).next = some h0)
    (heroot : e ≠ s.rootId) (heh0 : e ≠ h0) :
    ((s.pushFront e k v).nodes e).next = some h0 ∧
    ((s.pushFront e k v).nodes e).prev = some s.rootId ∧
    ((s.pushFront e k v).nodes e).list = some s.listId ∧
    ((s.pushFront e k v).nodes s.rootId).next = some e ∧
    ((s.pushFront e k v).nodes h0).prev = some e ∧
    (∀ i, i ≠ e → i ≠ s.rootId → ((s.pushFront e k v).nodes i).next = (s.nodes i).next) ∧
    (∀ i, i ≠ e → i ≠ h0 → ((s.pushFront e k v).nodes i).prev = (s.nodes i).prev) ∧
    (∀ i, i ≠ e → ((s.pushFront e k v).nodes i).list = (s.nodes i).list) ∧
    (s.pushFront e k v).len = s.len + 1 ∧
    (s.pushFront e k v).rootId = s.rootId ∧
    (s.pushFront e k v).listId = s.listId := by
  have h1 : s.rootId ≠ e := Ne.symm heroot
  have hread : ((({ s with nodes := fun j => if j = e then
        (⟨none, none, none, k, v⟩ : entry K V) else s.nodes j } : lruList K V).setN e
        (fun nd => { nd with prev := some s.rootId })).nodes s.rootId).next = some h0 := by
    rw [setN_other _ _ h1]
    show (if s.rootId = e then (⟨none, none, none, k, v⟩ : entry K V)
      else s.nodes s.rootId).next = some h0
    rw [if_neg h1]
    exact hroot
  have heq : s.pushFront e k v =
      { ((((({ s with nodes := fun j => if j = e then
          (⟨none, none, none, k, v⟩ : entry K V) else s.nodes j } : lruList K V).setN e
          (fun nd => { nd with prev := some s.rootId })).setN e
          (fun nd => { nd with next := some h0 })).setN s.rootId
          (fun nd => { nd with next := some e })).setN h0
          (fun nd => { nd with prev := some e })).setN e
          (fun nd => { nd with list := some s.listId })
        with len := s.len + 1 } := by
    unfold lruList.pushFront lruList.lazyInit lruList.insert
    rw [if_neg (show ¬ (s.nodes s.rootId).next = none from by rw [hroot]; simp)]
    dsimp only
    rw [hread]
    rw [show ((((({ s with nodes := fun j => if j = e then
        (⟨none, none, none, k, v⟩ : entry K V) else s.nodes j } : lruList K V).setN e
        (fun nd => { nd with prev := some s.rootId })).setN e
        (fun nd => { nd with next := some h0 })).setN s.rootId
        (fun nd => { nd with next := some e })).nodes e).next = some h0 from by
      rw [setN_other _ _ heroot, setN_same]]
    rfl
  rw [heq]
  refine ⟨?_, ?_, ?_, ?_, ?_, ?_, ?_, ?_, rfl, rfl, rfl⟩
  · dsimp only
    rw [setN_same]
    dsimp only
    rw [setN_other _ _ heh0, setN_other _ _ heroot, setN_same]
  · dsimp only
    rw [setN_same]
    dsimp only
    rw [setN_other _ _ heh0, setN_other _ _ heroot, setN_same]
    dsimp only
    rw [setN_same]
  · dsimp only
    rw [setN_same]
  · dsimp only
    rw [setN_other _ _ h1]
    by_cases hrh : s.rootId = h0
    · rw [← hrh]
      rw [setN_same]
      dsimp only
      rw [setN_same]
    · rw [setN_other _ _ (fun he => hrh he), setN_same]
  · dsimp only
    rw [setN_other _ _ (Ne.symm heh0), setN_same]
  · intro i hie hir
    dsimp only
    rw [setN_other _ _ hie]
    by_cases hih : i = h0
    · rw [hih, setN_same]
      dsimp only
      rw [setN_other _ _ (hih ▸ hir), setN_other _ _ (hih ▸ hie),
        setN_other _ _ (hih ▸ hie)]
      show (if h0 = e then _ else s.nodes h0).next = _
      rw [if_neg (hih ▸ hie)]
    · rw [setN_other _ _ hih, setN_other _ _ hir, setN_other _ _ hie,
        setN_other _ _ hie]
      show (if i = e then _ else s.nodes i).next = _
      rw [if_neg hie]
  · intro i hie hih
    dsimp only
    rw [setN_other _ _ hie, setN_other _ _ hih]
    by_cases hir : i = s.rootId
    · rw [hir, setN_same]
      dsimp only
      rw [setN_other _ _ (hir ▸ hie), setN_other _ _ (hir ▸ hie)]
      show (if s.rootId = e then _ else s.nodes s.rootId).prev = _
      rw [if_neg (hir ▸ hie)]
    · rw [setN_other _ _ hir, setN_other _ _ hie, setN_other _ _ hie]
      show (if i = e then _ else s.nodes i).prev = _
      rw [if_neg hie]
  · intro i hie
    dsimp only
    rw [setN_other _ _ hie]
    by_cases hih : i = h0
    · by_cases hir : i = s.rootId
      · rw [hih, setN_same]
        dsimp only
        rw [← hih, hir, setN_same]
        dsimp only
        rw [setN_other _ _ (hir ▸ hie), setN_other _ _ (hir ▸ hie)]
        show (if s.rootId = e then _ else s.nodes s.rootId).list = _
        rw [if_neg (hir ▸ hie)]
      · rw [hih, setN_same]
        dsimp only
        rw [setN_other _ _ (hih ▸ hir), setN_other _ _ (hih ▸ hie),
          setN_other _ _ (hih ▸ hie)]
        show (if h0 = e then _ else s.nodes h0).list = _
        rw [if_neg (hih ▸ hie)]
    · rw [setN_other _ _ hih]
      by_cases hir : i = s.rootId
      · rw [hir, setN_same]
        dsimp only
        rw [setN_other _ _ (hir ▸ hie), setN_other _ _ (hir ▸ hie)]
        show (if s.rootId = e then _ else s.nodes s.rootId).list = _
        rw [if_neg (hir ▸ hie)]
      · rw [setN_other _ _ hir, setN_other _ _ hie, setN_other _ _ hie]
        show (if i = e then _ else s.nodes i).list = _
        rw [if_neg hie]

/-- Field-level effect of `move e root` (the splice performed by
`moveToFront` on a member that is not already at the front): `e` is
unlinked from between its neighbours `p` and `q`, which are spliced
together, and re-inserted between the root and the old front `h0`; no
`list` pointer and no length changes. -/
theorem move_fields {s : lruList K V} {e p q h0 : Nat}
    (hp : (s.nodes e).prev = some p) (hq : (s.nodes e).next = some q)
    (hroot : (s.nodes s.rootId).next = some h0)
    (her : e ≠ s.rootId) (hep : e ≠ p) (heq2 : e ≠ q) (heh : e ≠ h0)
    (hpr : p ≠ s.rootId) (hqh : q ≠ h0) :
    ((s.move e s.rootId).nodes s.rootId).next = some e ∧
    ((s.move e s.rootId).nodes e).prev = some s.rootId ∧
    ((s.move e s.rootId).nodes e).next = some h0 ∧
    ((s.move e s.rootId).nodes h0).prev = some e ∧
    ((s.move e s.rootId).nodes p).next = some q ∧
    ((s.move e s.rootId).nodes q).prev = some p ∧
    (∀ i, i ≠ p → i ≠ e → i ≠ s.rootId →
      ((s.move e s.rootId).nodes i).next = (s.nodes i).next) ∧
    (∀ i, i ≠ q → i ≠ e → i ≠ h0 →
      ((s.move e s.rootId).nodes i).prev = (s.nodes i).prev) ∧
    (∀ i, ((s.move e s.rootId).nodes i).list = (s.nodes i).list) ∧
    (s.move e s.rootId).len = s.len ∧
    (s.move e s.rootId).rootId = s.rootId ∧
    (s.move e s.rootId).listId = s.listId := by
  have heq : s.move e s.rootId =
      ((((((s.setN p (fun nd => { nd with next := some q })).setN q
          (fun nd => { nd with prev := some p })).setN e
          (fun nd => { nd with prev := some s.rootId })).setN e
          (fun nd => { nd with next := some h0 })).setN s.rootId
          (fun nd => { nd with next := some e })).setN h0
          (fun nd => { nd with prev := some e })) := by
    unfold lruList.move
    rw [if_neg her]
    dsimp only
    rw [hp]
    dsimp only
    rw [hq]
    rw [show ((s.setN p fun nd => { nd with next := some q }).nodes e).next =
      some q from by rw [setN_other _ _ hep]; exact hq]
    rw [show ((s.setN p fun nd => { nd with next := some q }).nodes e).prev =
      some p from by rw [setN_other _ _ hep]; exact hp]
    dsimp only
    rw [show ((((s.setN p fun nd => { nd with next := some q }).setN q
        fun nd => { nd with prev := some p }).setN e
        fun nd => { nd with prev := some s.rootId }).nodes s.rootId).next =
      some h0 from by
      rw [setN_updPrev_next, setN_updPrev_next,
        setN_other _ _ (Ne.symm hpr)]
      exact hroot]
    rw [show ((((((s.setN p fun nd => { nd with next := some q }).setN q
        fun nd => { nd with prev := some p }).setN e
        fun nd => { nd with prev := some s.rootId }).setN e
        fun nd => { nd with next := some h0 }).setN s.rootId
        fun nd => { nd with next := some e }).nodes e).next =
      some h0 from by
      rw [setN_other _ _ her, setN_same]]
  rw [heq]
  refine ⟨?_, ?_, ?_, ?_, ?_, ?_, ?_, ?_, ?_, rfl, rfl, rfl⟩
  · rw [setN_updPrev_next, setN_same]
  · rw [setN_other _ _ heh, setN_updNext_prev, setN_updNext_prev, setN_same]
  · rw [setN_updPrev_next, setN_other _ _ her, setN_same]
  · rw [setN_same]
  · rw [setN_updPrev_next, setN_other _ _ hpr, setN_other _ _ (Ne.symm hep),
      setN_updPrev_next, setN_updPrev_next, setN_same]
  · rw [setN_other _ _ hqh, setN_updNext_prev, setN_updNext_prev,
      setN_other _ _ (Ne.symm heq2), setN_same]
  · intro i hip hie hir
    rw [setN_updPrev_next, setN_other _ _ hir, setN_other _ _ hie,
      setN_updPrev_next, setN_updPrev_next, setN_other _ _ hip]
  · intro i hiq hie hih
    rw [setN_other _ _ hih, setN_updNext_prev, setN_updNext_prev,
      setN_other _ _ hie, setN_other _ _ hiq, setN_updNext_prev]
  · intro i
    rw [setN_updPrev_list, setN_updNext_list, setN_updNext_list,
      setN_updPrev_list, setN_updPrev_list, setN_updNext_list]

/-- `remove` always clears the removed node's `list` pointer. -/
theorem remove_clears_list (s : lruList K V) (n : Nat) :
    ((s.remove n).nodes n).list = none := by
  unfold lruList.remove
  dsimp only
  rw [setN_same]

/-- `remove` on a member of a well-formed list preserves well-formedness,
with the member deleted from the cyclic order. -/
theorem wf_remove {s : lruList K V} {ids : List Nat} (h : s.WF ids)
    {n : Nat} (hmem : n ∈ ids) : (s.remove n).WF (ids.erase n) := by
  obtain ⟨hch, hnd, hlst, hlen⟩ := h
  obtain ⟨w1, w2, hids⟩ := List.append_of_mem hmem
  subst hids
  have hroot_nin : s.rootId ∉ w1 ++ n :: w2 := (List.nodup_cons.1 hnd).1
  have hnd2 : (w1 ++ n :: w2).Nodup := (List.nodup_cons.1 hnd).2
  have hnd3 : (n :: (w1 ++ w2)).Nodup := List.nodup_middle.1 hnd2
  have hn_nin : n ∉ w1 ++ w2 := (List.nodup_cons.1 hnd3).1
  have hnd4 : (w1 ++ w2).Nodup := (List.nodup_cons.1 hnd3).2
  have hnw1 : n ∉ w1 := fun hh => hn_nin (List.mem_append_left _ hh)
  have hnw2 : n ∉ w2 := fun hh => hn_nin (List.mem_append_right _ hh)
  have hnr : n ≠ s.rootId := fun hh => hroot_nin (by
    rw [← hh]
    exact List.mem_append_right _ (List.mem_cons_self _ _))
  have herase : (w1 ++ n :: w2).erase n = w1 ++ w2 := by
    rw [List.erase_append_right _ hnw1, List.erase_cons_head]
  have hne1 : (s.rootId :: w1) ≠ [] := by simp
  have hp? : (s.rootId :: w1).getLast? =
      some ((s.rootId :: w1).getLast hne1) := List.getLast?_eq_getLast _ hne1
  set p := (s.rootId :: w1).getLast hne1 with hpdef
  have hpmem : p ∈ s.rootId :: w1 := List.getLast_mem hne1
  obtain ⟨q, tl, hqt⟩ : ∃ q tl, w2 ++ [s.rootId] = q :: tl := by
    cases w2 with
    | nil => exact ⟨s.rootId, [], rfl⟩
    | cons b bs => exact ⟨b, bs ++ [s.rootId], rfl⟩
  have hq? : (w2 ++ [s.rootId]).head? = some q := by rw [hqt]; rfl
  have hqmem : q ∈ w2 ++ [s.rootId] := List.mem_of_mem_head? hq?
  have hch1 : s.chain ((s.rootId :: w1) ++ n :: (w2 ++ [s.rootId])) := by
    have hsh : s.rootId :: (w1 ++ n :: w2) ++ [s.rootId]
        = (s.rootId :: w1) ++ n :: (w2 ++ [s.rootId]) := by simp
    rw [← hsh]
    exact hch
  have hlpn : s.link p n := by
    have hdec : (s.rootId :: w1).dropLast ++ [p] = s.rootId :: w1 :=
      List.dropLast_concat_getLast hne1
    have hch2 : s.chain ((s.rootId :: w1).dropLast
        ++ p :: n :: (w2 ++ [s.rootId])) := by
      have hsh : (s.rootId :: w1).dropLast ++ p :: n :: (w2 ++ [s.rootId])
          = (s.rootId :: w1) ++ n :: (w2 ++ [s.rootId]) := by
        rw [← hdec]
        simp
      rw [hsh]
      exact hch1
    exact chain_adj _ hch2
  have hlnq : s.link n q := by
    have hch2 : s.chain ((s.rootId :: w1) ++ n :: q :: tl) := by
      rw [← hqt]
      exact hch1
    exact chain_adj _ hch2
  have hp : (s.nodes n).prev = some p := hlpn.2
  have hq : (s.nodes n).next = some q := hlnq.1
  have hnp : n ≠ p := by
    intro hh
    rcases List.mem_cons.1 hpmem with h1 | h1
    · exact hnr (hh.trans h1)
    · exact hnw1 (by rw [hh]; exact h1)
  have hnq : n ≠ q := by
    intro hh
    rcases List.mem_append.1 hqmem with h1 | h1
    · exact hnw2 (by rw [hh]; exact h1)
    · exact hnr (by rw [hh]; exact List.mem_singleton.1 h1)
  obtain ⟨f1, f2, f3, fnext, fprev, flist, flen, frt, flid⟩ :=
    remove_fields hp hq hnp hnq
  rw [herase]
  unfold lruList.WF
  refine ⟨?_, ?_, ?_, ?_⟩
  · rw [frt]
    have hmain : (s.remove n).chain (s.rootId :: w1 ++ w2 ++ [s.rootId]) := by
      refine chain_unlink (s := s) w1 s.rootId ?_ ?_ hroot_nin hp? hq? f1 f2 ?_ ?_
      · have hsh : s.rootId :: w1 ++ n :: w2 ++ [s.rootId]
            = s.rootId :: (w1 ++ n :: w2) ++ [s.rootId] := by simp
        rw [hsh]
        exact hch
      · exact hnd
      · intro i _ hip hin
        exact fnext i hip hin
      · intro i _ hiq hin
        exact fprev i hiq hin
    have hsh : s.rootId :: (w1 ++ w2) ++ [s.rootId]
        = s.rootId :: w1 ++ w2 ++ [s.rootId] := by simp
    rw [hsh]
    exact hmain
  · rw [frt]
    refine List.nodup_cons.2 ⟨?_, hnd4⟩
    intro hh
    rcases List.mem_append.1 hh with h1 | h1
    · exact hroot_nin (List.mem_append_left _ h1)
    · exact hroot_nin (List.mem_append_right _ (List.mem_cons_of_mem n h1))
  · intro i hi
    rw [flid, flist i (fun hh => hn_nin (by rw [← hh]; exact hi))]
    refine hlst i ?_
    rcases List.mem_append.1 hi with h1 | h1
    · exact List.mem_append_left _ h1
    · exact List.mem_append_right _ (List.mem_cons_of_mem n h1)
  · rw [flen, hlen]
    simp only [List.length_append, List.length_cons]
    push_cast
    omega

/-- `pushFront` of a fresh node on a well-formed (hence initialized) list
preserves well-formedness, with the new node at the head. -/
theorem wf_pushFront {s : lruList K V} {ids : List Nat} (h : s.WF ids)
    {e : Nat} (he : e ∉ s.rootId :: ids) (k : K) (v : V) :
    (s.pushFront e k v).WF (e :: ids) := by
  obtain ⟨hch, hnd, hlst, hlen⟩ := h
  have her : e ≠ s.rootId := fun hh => he (by
    rw [hh]
    exact List.mem_cons_self _ _)
  have heids : e ∉ ids := fun hh => he (List.mem_cons_of_mem _ hh)
  have hndr : (ids ++ [s.rootId]).Nodup :=
    (List.perm_append_singleton _ _).symm.nodup hnd
  obtain ⟨h0, tl, hht⟩ : ∃ h0 tl, ids ++ [s.rootId] = h0 :: tl := by
    cases ids with
    | nil => exact ⟨s.rootId, [], rfl⟩
    | cons b bs => exact ⟨b, bs ++ [s.rootId], rfl⟩
  have hh0mem : h0 ∈ ids ++ [s.rootId] := by
    rw [hht]
    exact List.mem_cons_self _ _
  have hch' : s.chain (s.rootId :: h0 :: tl) := by
    rw [← hht]
    exact hch
  have hlrh : s.link s.rootId h0 := hch'.1
  have heh0 : e ≠ h0 := by
    intro hh
    rcases List.mem_append.1 hh0mem with h1 | h1
    · exact heids (by rw [hh]; exact h1)
    · exact her (by rw [hh]; exact List.mem_singleton.1 h1)
  obtain ⟨g1, g2, g3, g4, g5, gnext, gprev, glist, glen, grt, glid⟩ :=
    pushFront_fields (e := e) k v hlrh.1 her heh0
  unfold lruList.WF
  refine ⟨?_, ?_, ?_, ?_⟩
  · rw [grt]
    show (s.pushFront e k v).chain (s.rootId :: e :: (ids ++ [s.rootId]))
    rw [hht]
    refine ⟨⟨g4, g2⟩, ⟨g1, g5⟩, ?_⟩
    have hold : s.chain (h0 :: tl) := chain_tail hch'
    refine (chain_frame (h0 :: tl) ?_ ?_).2 hold
    · intro i hi
      have hi2 : i ∈ ids := by
        have hdl : (h0 :: tl).dropLast = ids := by
          rw [← hht, List.dropLast_concat]
        rw [hdl] at hi
        exact hi
      exact gnext i (fun hh => heids (by rw [← hh]; exact hi2))
        (fun hh => (List.nodup_cons.1 hnd).1 (by rw [← hh]; exact hi2))
    · intro i hi
      have hi2 : i ∈ tl := by simpa using hi
      have hitotal : i ∈ ids ++ [s.rootId] := by
        rw [hht]
        exact List.mem_cons_of_mem _ hi2
      have hie : i ≠ e := by
        intro hh
        rcases List.mem_append.1 hitotal with h1 | h1
        · exact heids (by rw [← hh]; exact h1)
        · exact her ((List.mem_singleton.1 h1).symm.trans hh).symm
      have hih : i ≠ h0 := by
        intro hh
        have hndr2 : (h0 :: tl).Nodup := by
          rw [← hht]
          exact hndr
        exact (List.nodup_cons.1 hndr2).1 (by rw [← hh]; exact hi2)
      exact gprev i hie hih
  · rw [grt]
    refine List.nodup_cons.2 ⟨?_, List.nodup_cons.2 ⟨heids, (List.nodup_cons.1 hnd).2⟩⟩
    intro hh
    rcases List.mem_cons.1 hh with h1 | h1
    · exact her h1.symm
    · exact (List.nodup_cons.1 hnd).1 h1
  · intro i hi
    rw [glid]
    rcases List.mem_cons.1 hi with h1 | h1
    · rw [h1]
      exact g3
    · rw [glist i (fun hh => heids (by rw [← hh]; exact h1))]
      exact hlst i h1
  · rw [glen, hlen]
    simp only [List.length_cons]
    push_cast
    ring

/-- `moveToFront` on a member of a well-formed list that is not already
at the front puts it at the front (`root.next == e`) and preserves
well-formedness, with the member moved to the head of the order. -/
theorem wf_moveToFront {s : lruList K V} {ids : List Nat} (h : s.WF ids)
    {e : Nat} (hmem : e ∈ ids) (hfrnt : (s.nodes s.rootId).next ≠ some e) :
    ((s.moveToFront e).nodes s.rootId).next = some e ∧
    (s.moveToFront e).WF (e :: ids.erase e) := by
  obtain ⟨hch, hnd, hlst, hlen⟩ := h
  have hguard : ¬ ((s.nodes e).list ≠ some s.listId ∨
      (s.nodes s.rootId).next = some e) := by
    push_neg
    exact ⟨by rw [hlst e hmem], hfrnt⟩
  have hmv : s.moveToFront e = s.move e s.rootId := by
    unfold lruList.moveToFront
    rw [if_neg hguard]
  rw [hmv]
  obtain ⟨w1, w2, hids⟩ := List.append_of_mem hmem
  subst hids
  have hroot_nin : s.rootId ∉ w1 ++ e :: w2 := (List.nodup_cons.1 hnd).1
  have hnd2 : (w1 ++ e :: w2).Nodup := (List.nodup_cons.1 hnd).2
  have hnd3 : (e :: (w1 ++ w2)).Nodup := List.nodup_middle.1 hnd2
  have he_nin : e ∉ w1 ++ w2 := (List.nodup_cons.1 hnd3).1
  have hnd4 : (w1 ++ w2).Nodup := (List.nodup_cons.1 hnd3).2
  have hew1 : e ∉ w1 := fun hh => he_nin (List.mem_append_left _ hh)
  have hew2 : e ∉ w2 := fun hh => he_nin (List.mem_append_right _ hh)
  have her : e ≠ s.rootId := fun hh => hroot_nin (by
    rw [← hh]
    exact List.mem_append_right _ (List.mem_cons_self _ _))
  cases w1 with
  | nil =>
    exfalso
    exact hfrnt hch.1.1
  | cons a w1' =>
    have hch' : s.chain (s.rootId :: a :: (w1' ++ e :: w2 ++ [s.rootId])) := by
      have hsh : s.rootId :: (a :: w1' ++ e :: w2) ++ [s.rootId]
          = s.rootId :: a :: (w1' ++ e :: w2 ++ [s.rootId]) := by simp
      rw [← hsh]
      exact hch
    have hroot : (s.nodes s.rootId).next = some a := hch'.1.1
    have hchain2 : s.chain ((a :: w1') ++ e :: (w2 ++ [s.rootId])) := by
      have hsh : s.rootId :: a :: (w1' ++ e :: w2 ++ [s.rootId])
          = s.rootId :: ((a :: w1') ++ e :: (w2 ++ [s.rootId])) := by simp
      have hc2 := hch'
      rw [hsh] at hc2
      exact chain_tail hc2
    have hne1 : (a :: w1') ≠ [] := by simp
    have hp? : (a :: w1').getLast? = some ((a :: w1').getLast hne1) :=
      List.getLast?_eq_getLast _ hne1
    set p := (a :: w1').getLast hne1 with hpdef
    have hpmem : p ∈ a :: w1' := List.getLast_mem hne1
    obtain ⟨q, tl, hqt⟩ : ∃ q tl, w2 ++ [s.rootId] = q :: tl := by
      cases w2 with
      | nil => exact ⟨s.rootId, [], rfl⟩
      | cons b bs => exact ⟨b, bs ++ [s.rootId], rfl⟩
    have hq? : (w2 ++ [s.rootId]).head? = some q := by rw [hqt]; rfl
    have hqmem : q ∈ w2 ++ [s.rootId] := List.mem_of_mem_head? hq?
    have hlpe : s.link p e := by
      have hdec : (a :: w1').dropLast ++ [p] = a :: w1' :=
        List.dropLast_concat_getLast hne1
      have hch2 : s.chain ((a :: w1').dropLast
          ++ p :: e :: (w2 ++ [s.rootId])) := by
        have hsh : (a :: w1').dropLast ++ p :: e :: (w2 ++ [s.rootId])
            = (a :: w1') ++ e :: (w2 ++ [s.rootId]) := by
          rw [← hdec]
          simp
        rw [hsh]
        exact hchain2
      exact chain_adj _ hch2
    have hleq : s.link e q := by
      have hch2 : s.chain ((a :: w1') ++ e :: q :: tl) := by
        rw [← hqt]
        exact hchain2
      exact chain_adj _ hch2
    have hp : (s.nodes e).prev = some p := hlpe.2
    have hq : (s.nodes e).next = some q := hleq.1
    have hep : e ≠ p := fun hh => hew1 (by rw [hh]; exact hpmem)
    have heq2 : e ≠ q := by
      intro hh
      rcases List.mem_append.1 hqmem with h1 | h1
      · exact hew2 (by rw [hh]; exact h1)
      · exact her (by rw [hh]; exact List.mem_singleton.1 h1)
    have heh : e ≠ a := fun hh => hew1 (by
      rw [hh]
      exact List.mem_cons_self _ _)
    have hpr : p ≠ s.rootId := fun hh => hroot_nin (by
      rw [← hh]
      exact List.mem_append_left _ hpmem)
    have hqh : q ≠ a := by
      intro hh
      rcases List.mem_append.1 hqmem with h1 | h1
      · exact (List.nodup_cons.1 hnd2).1
          (List.mem_append_right _ (List.mem_cons_of_mem _ (by rw [← hh]; exact h1)))
      · exact hroot_nin (by
          rw [← hh.symm.trans (List.mem_singleton.1 h1)]
          exact List.mem_append_left _ (List.mem_cons_self _ _))
    obtain ⟨m1, m2, m3, m4, m5, m6, mnext, mprev, mlist, mlen, mrt, mlid⟩ :=
      move_fields hp hq hroot her hep heq2 heh hpr hqh
    have herase : ((a :: w1') ++ e :: w2).erase e = (a :: w1') ++ w2 := by
      rw [List.erase_append_right _ hew1, List.erase_cons_head]
    refine ⟨m1, ?_⟩
    rw [herase]
    unfold lruList.WF
    refine ⟨?_, ?_, ?_, ?_⟩
    · rw [mrt]
      have hsh : s.rootId :: (e :: (a :: w1' ++ w2)) ++ [s.rootId]
          = s.rootId :: e :: ((a :: w1') ++ w2 ++ [s.rootId]) := by simp
      show (s.move e s.rootId).chain
        (s.rootId :: (e :: (a :: w1' ++ w2)) ++ [s.rootId])
      rw [hsh]
      refine ⟨⟨m1, m2⟩, ⟨m3, m4⟩, ?_⟩
      refine chain_unlink (s := s) (n := e) w1' a ?_ ?_ ?_ hp? hq? m5 m6 ?_ ?_
      · have hsh2 : a :: w1' ++ e :: w2 ++ [s.rootId]
            = a :: w1' ++ e :: (w2 ++ [s.rootId]) := by simp
        rw [hsh2]
        exact hchain2
      · exact hnd2
      · intro hh
        exact hroot_nin (List.mem_cons_of_mem _ hh)
      · intro i hi hip hin
        refine mnext i hip hin (fun hh => hroot_nin ?_)
        rw [← hh]
        rcases List.mem_cons.1 hi with h1 | h1
        · rw [h1]
          exact List.mem_cons_self _ _
        · rcases List.mem_append.1 h1 with h2 | h2
          · exact List.mem_cons_of_mem _ (List.mem_append_left _ h2)
          · exact List.mem_cons_of_mem _
              (List.mem_append_right _ (List.mem_cons_of_mem _ h2))
      · intro i hi hiq hin
        refine mprev i hiq hin (fun hh => ?_)
        rw [hh] at hi
        rcases List.mem_append.1 hi with h1 | h1
        · rcases List.mem_append.1 h1 with h2 | h2
          · exact (List.nodup_cons.1 hnd2).1 (List.mem_append_left _ h2)
          · exact (List.nodup_cons.1 hnd2).1
              (List.mem_append_right _ (List.mem_cons_of_mem _ h2))
        · exact hroot_nin (by
            rw [← List.mem_singleton.1 h1]
            exact List.mem_cons_self _ _)
    · rw [mrt]
      refine List.nodup_cons.2 ⟨?_, List.nodup_cons.2 ⟨he_nin, hnd4⟩⟩
      intro hh
      rcases List.mem_cons.1 hh with h1 | h1
      · exact her h1.symm
      · rcases List.mem_append.1 h1 with h2 | h2
        · exact hroot_nin (List.mem_append_left _ h2)
        · exact hroot_nin
            (List.mem_append_right _ (List.mem_cons_of_mem _ h2))
    · intro i hi
      rw [mlid, mlist i]
      rcases List.mem_cons.1 hi with h1 | h1
      · rw [h1]
        exact hlst e hmem
      · refine hlst i ?_
        rcases List.mem_append.1 h1 with h2 | h2
        · exact List.mem_append_left _ h2
        · exact List.mem_append_right _ (List.mem_cons_of_mem _ h2)
    · rw [mlen, hlen]
      simp only [List.length_append, List.length_cons]
      push_cast
      ring

/-- `moveToFront` on any member of a well-formed list preserves
well-formedness, with the member at the head (already-front members make
it a no-op, and the order is unchanged). -/
theorem wf_moveToFront_any {s : lruList K V} {ids : List Nat} (h : s.WF ids)
    {n : Nat} (hmem : n ∈ ids) : (s.moveToFront n).WF (n :: ids.erase n) := by
  by_cases hf : (s.nodes s.rootId).next = some n
  · obtain ⟨hch, hnd, hlst, hlen⟩ := h
    cases ids with
    | nil => cases hmem
    | cons b bs =>
      have hbn : b = n := by
        have hlb := hch.1.1
        rw [hf] at hlb
        exact (Option.some.inj hlb).symm
      subst hbn
      have hmv : s.moveToFront b = s := by
        unfold lruList.moveToFront
        rw [if_pos (Or.inr hf)]
      rw [hmv, List.erase_cons_head]
      exact ⟨hch, hnd, hlst, hlen⟩
  · exact (wf_moveToFront ⟨h.1, h.2.1, h.2.2.1, h.2.2.2⟩ hmem hf).2

/-- Claim C8: `moveToFront(n)` does nothing when `n` does not belong to
the list or is already the front element; otherwise, on a well-formed
list, it unlinks `n` and re-inserts it at the front, so that after the
call `root.next == n` and the list is the old one with `n` moved to the
head; in particular, after `remove(n)` clears `n`'s list pointer, a
subsequent `moveToFront(n)` on the stale node is a no-op. -/
theorem moveToFront_spec (s : lruList K V) (e : Nat) (ids : List Nat) :
    ((s.nodes e).list ≠ some s.listId → s.moveToFront e = s) ∧
    ((s.nodes s.rootId).next = some e → s.moveToFront e = s) ∧
    (s.WF ids → e ∈ ids → (s.nodes s.rootId).next ≠ some e →
      ((s.moveToFront e).nodes s.rootId).next = some e ∧
      (s.moveToFront e).WF (e :: ids.erase e)) ∧
    ((s.remove e).moveToFront e = s.remove e) := by
  refine ⟨?_, ?_, ?_, ?_⟩
  · intro hno
    unfold lruList.moveToFront
    rw [if_pos (Or.inl hno)]
  · intro hf
    unfold lruList.moveToFront
    rw [if_pos (Or.inr hf)]
  · intro h hmem hfr
    exact wf_moveToFront h hmem hfr
  · unfold lruList.moveToFront
    rw [if_pos (Or.inl (by rw [remove_clears_list]; simp))]

/-- Witness for claim C8: on the concrete two-member list, moving the
back member to the front yields `root.next == 2` and a well-formed list
in the new order. -/
theorem moveToFront_spec_witness :
    ((sampleList.moveToFront 2).nodes 0).next = some 2 ∧
    (sampleList.moveToFront 2).WF [2, 1] :=
  (moveToFront_spec sampleList 2 [1, 2]).2.2.1 (by decide) (by decide)
    (by decide)

/-- Claim C9: the recency-list invariants — `len` counts the non-sentinel
nodes reachable from the root, every member's `list` pointer names this
list, and the cyclic chain structure (which gives `N.prev.next == N` and
`N.next.prev == N` for every member) — are preserved by `pushFront` of a
fresh node, by `remove` of a member, and by `moveToFront` of a member. -/
theorem lruList_invariants (s : lruList K V) (ids : List Nat)
    (h : s.WF ids) :
    (∀ e k v, e ∉ s.rootId :: ids → (s.pushFront e k v).WF (e :: ids)) ∧
    (∀ n, n ∈ ids → (s.remove n).WF (ids.erase n)) ∧
    (∀ n, n ∈ ids → (s.moveToFront n).WF (n :: ids.erase n)) :=
  ⟨fun _ k v he => wf_pushFront h he k v,
   fun _ hn => wf_remove h hn,
   fun _ hn => wf_moveToFront_any h hn⟩

/-- Witness for claim C9 on the concrete two-member list: pushing a fresh
node, removing a member and moving a member to the front each yield a
well-formed list. -/
theorem lruList_invariants_witness :
    (sampleList.pushFront 5 3 30).WF [5, 1, 2] ∧
    (sampleList.remove 1).WF [2] ∧
    (sampleList.moveToFront 1).WF [1, 2] := by
  have h := lruList_invariants sampleList [1, 2] (by decide)
  exact ⟨h.1 5 3 30 (by decide), h.2.1 1 (by decide), h.2.2 1 (by decide)⟩

end DailzLRU
